import Mathlib

/-!
Verification development for the phyloage phylotree package.

The marker arithmetic of the Go source uses float64; marker values here are
modelled as rationals (ℚ), which is exact for the repeat counts, averages and
stepwise distances the code manipulates.  Persons are mutable objects in Go;
they are modelled as cells of an explicit heap (a list of person records),
so pointer aliasing between a Clade's modal haplotype and a Sample's data is
represented faithfully.
-/

/-- `Uncertain` sentinel from tree.go: used for uncertain or unknown values. -/
def Uncertain : ℚ := -1

/-- A marker vector contains no `Uncertain` (-1) slots. -/
def noU (l : List ℚ) : Prop := ∀ x ∈ l, x ≠ Uncertain

instance (l : List ℚ) : Decidable (noU l) := List.decidableBAll _ l

/-! ### closestKey (modal.go) -/

/-- Fold state of `closestKey`: the running closest mutation below and above
the target together with their distances (`math.Inf(1)` is modelled as `⊤`). -/
structure CKState where
  smallestMutation : ℚ
  greatestMutation : ℚ
  lowDist : WithTop ℚ
  highDist : WithTop ℚ
deriving DecidableEq

/-- One iteration of the loop body of `closestKey` over the mutations map. -/
def ckStep (target : ℚ) (st : CKState) (mutation : ℚ) : CKState :=
  let dist : ℚ := mutation - target
  if dist < 0 then
    let d : ℚ := |dist|
    (if (d : WithTop ℚ) < st.lowDist then
      { st with lowDist := (d : WithTop ℚ), smallestMutation := mutation }
    else st)
  else if 0 < dist then
    let d : ℚ := |dist|
    (if (d : WithTop ℚ) < st.highDist then
      { st with highDist := (d : WithTop ℚ), greatestMutation := mutation }
    else st)
  else
    { smallestMutation := mutation, greatestMutation := mutation,
      lowDist := 0, highDist := 0 }

/-- `closestKey` from modal.go: the key of the mutations map closest to the
target; if two keys are equally close the smaller is returned as non-unique.
The map keys are modelled as a list (the result is order independent). -/
def closestKey (target : ℚ) (mutations : List ℚ) : ℚ × Bool :=
  if target ≤ 0 then (target, true)
  else
    let st := mutations.foldl (ckStep target) ⟨0, 0, ⊤, ⊤⟩
    if st.smallestMutation = st.greatestMutation then (st.smallestMutation, true)
    else if st.lowDist = st.highDist then (st.smallestMutation, false)
    else if st.lowDist < st.highDist then (st.smallestMutation, true)
    else (st.greatestMutation, true)

/-! ### maxParsimony (parsimony.go) and maximumParsimony (modal.go) -/

/-- Stepwise mutation model distance between two mutational values. -/
def singleDistStep (a b : ℚ) : ℚ := |a - b|

/-- Infinite alleles model distance between two mutational values. -/
def singleDistInf (a b : ℚ) : ℚ := if a = b then 0 else 1

/-- Number of mutations necessary to reach all `values` from `x`. -/
def totalDist (d : ℚ → ℚ → ℚ) (x : ℚ) (values : List ℚ) : ℚ :=
  (values.map (d x)).sum

/-- One iteration of the minimum-distance loop shared by `maxParsimony` and
`maximumParsimony`: the state is `(result, minDist)`; a strictly smaller
distance takes over, a tie by a different value resets the result to
`Uncertain` (`math.Inf(1)` is modelled as `⊤`). -/
def parsStep (td : ℚ → ℚ) (st : ℚ × WithTop ℚ) (x : ℚ) : ℚ × WithTop ℚ :=
  if (td x : WithTop ℚ) < st.2 then (x, (td x : WithTop ℚ))
  else if (td x : WithTop ℚ) = st.2 ∧ x ≠ st.1 then (Uncertain, st.2)
  else st

/-- The minimum-distance scan of `maxParsimony`/`maximumParsimony` over the
candidate values. -/
def parsScan (td : ℚ → ℚ) (init : ℚ) (values : List ℚ) : ℚ × WithTop ℚ :=
  values.foldl (parsStep td) (init, ⊤)

/-- `maxParsimony` from parsimony.go: stepwise mutation model, only positive
values are used for the calculation, result starts at 0. -/
def maxParsimony (values : List ℚ) : ℚ :=
  let vals := values.filter (fun v => 0 < v)
  (parsScan (fun x => totalDist singleDistStep x vals) 0 vals).1

/-- `maximumParsimony` from modal.go: infinite alleles model over all given
values (including 0 and Uncertain), result starts at `Uncertain`. -/
def maximumParsimony (values : List ℚ) : ℚ :=
  (parsScan (fun x => totalDist singleDistInf x values) Uncertain values).1

/-- The per-marker computation of `averageHaplotype` (modal.go): the average
of all values > 0, or 0 (the untouched zero slot) if none is positive. -/
def avgMarker (values : List ℚ) : ℚ :=
  let pos := values.filter (fun v => 0 < v)
  if 0 < pos.length then pos.sum / (pos.length : ℚ) else 0

/-! ### Heap of persons -/

/-- A person record (phylofriend `genetic.Person` restricted to the fields the
phylotree package touches): identifying strings and the Y-STR marker vector. -/
structure PersonR where
  id : String
  name : String
  label : String
  markers : List ℚ
deriving DecidableEq

/-- The heap of person objects; a `*genetic.Person` is an index into it. -/
abbrev Heap := List PersonR

/-- The zero `genetic.Person` produced by `new(genetic.Person)` has empty
strings; its marker array is supplied by the caller. -/
def emptyPerson : PersonR := ⟨"", "", "", []⟩

/-- Dereference a person pointer. -/
def hget (h : Heap) (r : ℕ) : PersonR := h.getD r emptyPerson

/-- Write through a person pointer. -/
def hset (h : Heap) (r : ℕ) (p : PersonR) : Heap := h.set r p

/-- Allocate a fresh person object, returning the new heap and the pointer. -/
def halloc (h : Heap) (p : PersonR) : Heap × ℕ := (h ++ [p], h.length)

/-! ### Heap-level operations of modal.go -/

/-- Marker statistics: for each marker index the list of real-world observed
values (the keys of `statistics.Markers[i].ValuesOccurrences`). -/
abbrev Stats := List (List ℚ)

/-- Observed values for marker `i`. -/
def statKeys (stats : Stats) (i : ℕ) : List ℚ := stats.getD i []

/-- `mappingOption` from modal.go. -/
inductive MappingOption
  | mapAll
  | mapCertain
  | markUncertain
deriving DecidableEq

/-- The marker-vector update of `constrainHaplotype` (modal.go): each value is
mapped per the mapping option using `closestKey`. -/
def constrainMarkers (stats : Stats) (mapping : MappingOption) (markers : List ℚ) :
    List ℚ :=
  (List.range markers.length).map (fun i =>
    let v := markers.getD i 0
    let ck := closestKey v (statKeys stats i)
    if ck.2 = true ∨ mapping = MappingOption.mapAll then ck.1
    else if ck.2 = false ∧ mapping = MappingOption.markUncertain then Uncertain
    else v)

/-- `constrainHaplotype` from modal.go, acting on the person cell `r`. -/
def constrainHaplotypeRef (r : ℕ) (stats : Stats) (mapping : MappingOption)
    (h : Heap) : Heap :=
  hset h r { hget h r with markers := constrainMarkers stats mapping (hget h r).markers }

/-- The marker-vector update of `replaceUncertains` (modal.go): Uncertain
slots of the target take the corresponding source value. -/
def mergeUncertain (target source : List ℚ) : List ℚ :=
  (List.range target.length).map (fun i =>
    let v := target.getD i 0
    if v = Uncertain then source.getD i 0 else v)

/-- `replaceUncertains` from modal.go on person cells `t` (target), `s`
(source). -/
def replaceUncertains (t s : ℕ) (h : Heap) : Heap :=
  hset h t { hget h t with markers := mergeUncertain (hget h t).markers (hget h s).markers }

/-- The marker-vector update of `replaceUncertainValues` (modal.go): slots of
the target whose `closestKey` is not unique are replaced by the closest key
of the source value. -/
def replaceMarkersUncertainValues (stats : Stats) (target source : List ℚ) :
    List ℚ :=
  (List.range target.length).map (fun i =>
    let v := target.getD i 0
    if (closestKey v (statKeys stats i)).2 = false
    then (closestKey (source.getD i 0) (statKeys stats i)).1
    else v)

/-- `replaceUncertainValues` from modal.go on person cells. -/
def replaceUncertainValues (t s : ℕ) (stats : Stats) (h : Heap) : Heap :=
  hset h t { hget h t with
    markers := replaceMarkersUncertainValues stats (hget h t).markers (hget h s).markers }

/-- The values of marker `m` across a list of persons. -/
def slotValues (h : Heap) (persons : List ℕ) (m : ℕ) : List ℚ :=
  persons.map (fun p => (hget h p).markers.getD m 0)

/-- A fresh modal marker array of global length `n`: the zero array of
`new(genetic.Person)` with slots `m < len` written by the per-marker loop. -/
def modalMarkers (n len : ℕ) (f : ℕ → ℚ) : List ℚ :=
  (List.range n).map (fun m => if m < len then f m else 0)

/-- `averageHaplotype` from modal.go: 0 persons → fresh zero haplotype;
1 person → that person itself (pointer aliasing); otherwise a fresh person
holding the per-marker averages over the values > 0. -/
def averageHaplotypeF (n : ℕ) (persons : List ℕ) (h : Heap) : Heap × ℕ :=
  match persons with
  | [] => halloc h { emptyPerson with markers := List.replicate n 0 }
  | [p] => (h, p)
  | p₀ :: _ :: _ =>
    let ms := modalMarkers n (hget h p₀).markers.length
      (fun m => avgMarker (slotValues h persons m))
    halloc h { emptyPerson with markers := ms }

/-- `maximumParsimonyHaplotype` from modal.go: same shape as
`averageHaplotypeF` but each marker is `maximumParsimony` of all values. -/
def maximumParsimonyHaplotypeF (n : ℕ) (persons : List ℕ) (h : Heap) : Heap × ℕ :=
  match persons with
  | [] => halloc h { emptyPerson with markers := List.replicate n 0 }
  | [p] => (h, p)
  | p₀ :: _ :: _ =>
    let ms := modalMarkers n (hget h p₀).markers.length
      (fun m => maximumParsimony (slotValues h persons m))
    halloc h { emptyPerson with markers := ms }

/-! ### The tree -/

/-- A sample leaf: only its (possibly missing) person data matters to the
modal haplotype engine. -/
structure SampleT where
  person : Option ℕ
deriving DecidableEq

/-- A clade node of the phylogenetic tree (tree.go `Clade`, restricted to the
fields the modal haplotype engine reads or writes). -/
inductive CladeT where
  | mk (snps : List String) (person : Option ℕ)
       (samples : List SampleT) (subclades : List CladeT)

/-- SNP names of the clade. -/
def CladeT.snps : CladeT → List String
  | .mk s _ _ _ => s

/-- Modal haplotype pointer of the clade. -/
def CladeT.person : CladeT → Option ℕ
  | .mk _ p _ _ => p

/-- Sample children. -/
def CladeT.samples : CladeT → List SampleT
  | .mk _ _ ss _ => ss

/-- Subclade children. -/
def CladeT.subclades : CladeT → List CladeT
  | .mk _ _ _ cs => cs

mutual

/-- `calculateHaplotypes` from modal.go: collect the persons of samples and
(just recursed-into) subclades, run the policy, stamp the clade's first SNP
name on the modal person, and install it (or merge into an existing person).
`c.SNPs[0]` is modelled with `headD` (the Go code assumes a nonempty SNP
list). -/
def calculateHaplotypes (pol : List ℕ → Heap → Heap × ℕ) :
    CladeT → Heap → CladeT × Heap
  | .mk snps person samples subclades, h =>
    let rsub := calculateHaplotypesList pol subclades h
    let persons := samples.filterMap SampleT.person ++ rsub.2.2
    let hm := pol persons rsub.2.1
    let h' := hset hm.1 hm.2 { hget hm.1 hm.2 with
      id := snps.headD "", name := snps.headD "", label := snps.headD "" }
    match person with
    | none => (.mk snps (some hm.2) samples rsub.1, h')
    | some t => (.mk snps (some t) samples rsub.1, replaceUncertains t hm.2 h')

/-- The subclade loop of `calculateHaplotypes`: recurse into each subclade in
order, threading the heap, and collect the non-nil subclade persons. -/
def calculateHaplotypesList (pol : List ℕ → Heap → Heap × ℕ) :
    List CladeT → Heap → List CladeT × Heap × List ℕ
  | [], h => ([], h, [])
  | c :: cs, h =>
    let r := calculateHaplotypes pol c h
    let rs := calculateHaplotypesList pol cs r.2
    (r.1 :: rs.1, rs.2.1, r.1.person.toList ++ rs.2.2)

end

mutual

/-- `constrainHaplotypes` from modal.go: recurse into subclades first, then
constrain this clade's person and the subclade persons. -/
def constrainHaplotypes (stats : Stats) (mapping : MappingOption) :
    CladeT → Heap → Heap
  | .mk _ person _ subclades, h =>
    let r := constrainHaplotypesList stats mapping subclades h
    let persons := person.toList ++ r.2
    persons.foldl (fun hh p => constrainHaplotypeRef p stats mapping hh) r.1

/-- Subclade loop of `constrainHaplotypes`, collecting subclade persons. -/
def constrainHaplotypesList (stats : Stats) (mapping : MappingOption) :
    List CladeT → Heap → Heap × List ℕ
  | [], h => (h, [])
  | c :: cs, h =>
    let h1 := constrainHaplotypes stats mapping c h
    let r := constrainHaplotypesList stats mapping cs h1
    (r.1, c.person.toList ++ r.2)

end

mutual

/-- `recalculateModalHaplotypes` from modal.go: average the parent person, the
subclade persons and the sample persons; replace non-unique slots of this
clade's person from the result; recurse into subclades with this clade as
parent.  (A nil `c.Person` would fault in Go; it is a no-op here and is
unreachable after processing stage 1.) -/
def recalculateModalHaplotypes (n : ℕ) (stats : Stats) :
    CladeT → Option ℕ → Heap → Heap
  | .mk _ person samples subclades, parentPerson, h =>
    let persons := parentPerson.toList
      ++ subclades.filterMap CladeT.person
      ++ samples.filterMap SampleT.person
    let hr := averageHaplotypeF n persons h
    let h1 := match person with
      | some t => replaceUncertainValues t hr.2 stats hr.1
      | none => hr.1
    recalculateModalHaplotypesList n stats subclades person h1

/-- The subclade loop of stage 4's top-down recalculation. -/
def recalculateModalHaplotypesList (n : ℕ) (stats : Stats) :
    List CladeT → Option ℕ → Heap → Heap
  | [], _, h => h
  | c :: cs, pp, h =>
    recalculateModalHaplotypesList n stats cs pp
      (recalculateModalHaplotypes n stats c pp h)

end

/-- `CalculateModalHaplotypesParsimony` from modal.go: the staged pipeline.
`n` is the global marker-array length of `genetic.Person`. -/
def CalculateModalHaplotypesParsimony (n : ℕ) (stats : Stats)
    (processingStage : ℤ) (c : CladeT) (h : Heap) : CladeT × Heap :=
  if processingStage < 1 then (c, h)
  else
    let r1 := calculateHaplotypes (maximumParsimonyHaplotypeF n) c h
    let r2 := if 2 ≤ processingStage then
        calculateHaplotypes (averageHaplotypeF n) r1.1 r1.2
      else r1
    let h3 := if processingStage = 3 then
        constrainHaplotypes stats MappingOption.markUncertain r2.1 r2.2
      else r2.2
    let h4 :=
      if 4 ≤ processingStage then
        let ha := constrainHaplotypes stats MappingOption.mapCertain r2.1 h3
        let hb := match r2.1.person with
          | some r => constrainHaplotypeRef r stats MappingOption.mapAll ha
          | none => ha
        recalculateModalHaplotypesList n stats r2.1.subclades r2.1.person hb
      else h3
    (r2.1, h4)

mutual

/-- Sample person pointers of the whole subtree. -/
def sampleRefs : CladeT → List ℕ
  | .mk _ _ samples subclades =>
    samples.filterMap SampleT.person ++ sampleRefsList subclades

/-- Sample person pointers of a list of subtrees. -/
def sampleRefsList : List CladeT → List ℕ
  | [] => []
  | c :: cs => sampleRefs c ++ sampleRefsList cs

end

mutual

/-- Clade (modal haplotype) person pointers of the whole subtree. -/
def cladeRefs : CladeT → List ℕ
  | .mk _ person _ subclades => person.toList ++ cladeRefsList subclades

/-- Clade person pointers of a list of subtrees. -/
def cladeRefsList : List CladeT → List ℕ
  | [] => []
  | c :: cs => cladeRefs c ++ cladeRefsList cs

end

mutual

/-- Every clade person of the subtree is nil (the state of a freshly parsed
tree, before the modal haplotype engine runs). -/
def allNoneB : CladeT → Bool
  | .mk _ person _ subclades => person.isNone && allNoneListB subclades

/-- List version of `allNoneB`. -/
def allNoneListB : List CladeT → Bool
  | [] => true
  | c :: cs => allNoneB c && allNoneListB cs

end

mutual

/-- Every clade person of the subtree is set. -/
def allSomeB : CladeT → Bool
  | .mk _ person _ subclades => person.isSome && allSomeListB subclades

/-- List version of `allSomeB`. -/
def allSomeListB : List CladeT → Bool
  | [] => true
  | c :: cs => allSomeB c && allSomeListB cs

end

/-- The tie hypothesis of the parsimony tie law, relative to a scorer `td`
and its candidate list `l`: `a` and `b` are distinct candidates, both score
the minimum, and no other candidate does. -/
def TieExactlyTwo (td : ℚ → ℚ) (l : List ℚ) (a b : ℚ) : Prop :=
  a ≠ b ∧ a ∈ l ∧ b ∈ l ∧ td a = td b ∧
    (∀ x ∈ l, td a ≤ td x) ∧ (∀ x ∈ l, td x = td a → x = a ∨ x = b)

/-- The marker vector of heap cell `r` has no `Uncertain` slot.  (A dangling
pointer reads the empty default cell, which trivially has none.) -/
def cellOK (h : Heap) (r : ℕ) : Prop := noU (hget h r).markers

/-- `h'` preserves every cell of `h` that is free of `Uncertain` slots. -/
def heapGood (h h' : Heap) : Prop := ∀ r, cellOK h r → cellOK h' r

/-- Slot-level monotonicity from `h` to `h'`: a slot of an allocated cell
that is not `Uncertain` in `h` is still not `Uncertain` in `h'`. -/
def slotKeep (h h' : Heap) : Prop :=
  ∀ r, r < h.length → ∀ j,
    (hget h r).markers.getD j 0 ≠ Uncertain →
    (hget h' r).markers.getD j 0 ≠ Uncertain

/-- The marker statistics contain real-world marker values only: `Uncertain`
is never an observed value. -/
def statsNoU (stats : Stats) : Prop := ∀ i : ℕ, (Uncertain : ℚ) ∉ statKeys stats i

/-- The intermediate heaps of the stage-4 pipeline
`CalculateModalHaplotypesParsimony`: initial, after strict parsimony, after
averaging, after `mapCertain`, after the root's `mapAll`, and after the
top-down recalculation. -/
def cmhpTrace (n : ℕ) (stats : Stats) (c : CladeT) (h : Heap) : List Heap :=
  let r1 := calculateHaplotypes (maximumParsimonyHaplotypeF n) c h
  let r2 := calculateHaplotypes (averageHaplotypeF n) r1.1 r1.2
  let ha := constrainHaplotypes stats MappingOption.mapCertain r2.1 r2.2
  let hb := match r2.1.person with
    | some r => constrainHaplotypeRef r stats MappingOption.mapAll ha
    | none => ha
  let h5 := recalculateModalHaplotypesList n stats r2.1.subclades r2.1.person hb
  [h, r1.2, r2.2, ha, hb, h5]

/-! ### average.go: the weighted combiner

The age estimator computes with float64, including a square root; it is
modelled over ℝ.  The combiner itself is generic over a field so that its
algebra can also be used at ℚ. -/

/-- The running total `Σ value/sigma2` computed by `avgCalculator.avg`. -/
def weightsTotal {α : Type} [Field α] (entries : List (α × α)) : α :=
  (entries.map (fun e => e.1 / e.2)).sum

/-- The weight `avgCalculator.avg` assigns to an entry:
`value / (weightsTotal * sigma2)`. -/
def entryWeight {α : Type} [Field α] (entries : List (α × α)) (e : α × α) : α :=
  e.1 / (weightsTotal entries * e.2)

/-- `avgCalculator.avg`: `(0, 0)` on an empty calculator, otherwise the
weighted average and the weighted square deviation. -/
def avgCalculatorAvg {α : Type} [Field α] (entries : List (α × α)) : α × α :=
  if entries.length = 0 then (0, 0)
  else
    ((entries.map (fun e => e.1 * entryWeight entries e)).sum,
     (entries.map (fun e => e.2 * entryWeight entries e * entryWeight entries e)).sum)

/-- Lower bounds of the embedded 95% Poisson table of average.go. -/
def poisLows : List ℝ := [0, 0, 0, 1, 1, 2, 2, 3, 4, 4, 5, 6, 6, 7, 8]

/-- Upper bounds of the embedded 95% Poisson table of average.go. -/
def poisHighs : List ℝ := [5, 7, 8, 10, 11, 13, 14, 15, 17, 18, 19, 20, 22, 23, 24]

/-- Go's float-to-int conversion `int(m)`: truncation toward zero. -/
noncomputable def goInt (x : ℝ) : ℤ := if x < 0 then -⌊-x⌋ else ⌊x⌋

/-- `confidenceIntervalsNormal` from average.go: table lookup below 15,
Gaussian approximation from 15 on. -/
noncomputable def confidenceIntervalsNormal (m : ℝ) : ℝ × ℝ :=
  if m < 15 then (poisLows.getD (goInt m).toNat 0, poisHighs.getD (goInt m).toNat 0)
  else (m - 2 * Real.sqrt (m + 1) + 2, m + 2 * Real.sqrt (m + 1) + 2)

/-- `avgCalculator.confidenceIntervals` from average.go. -/
noncomputable def confidenceIntervals (average sigma2 : ℝ) : ℝ × ℝ :=
  let s := Real.sqrt sigma2
  let ns := average / s
  let m := ns * ns
  let lh := confidenceIntervalsNormal m
  let c := average / m
  (c * lh.1, c * lh.2)

/-! ### tree.go: the age estimator -/

/-- A sample as the age estimator sees it: its local STR count. -/
structure SampleA where
  strCount : ℝ

/-- A clade as the age estimator sees it: local STR count, children, and the
derived statistics fields of tree.go's `Clade`. -/
inductive CladeA where
  | mk (strCount : ℝ) (samples : List SampleA) (subclades : List CladeA)
       (ageSTR strCountDownstream sigma2 tmrca tmrcaLower tmrcaUpper : ℝ)

/-- Local STR count. -/
def CladeA.strCount : CladeA → ℝ
  | .mk v _ _ _ _ _ _ _ _ => v

/-- Sample children. -/
def CladeA.samples : CladeA → List SampleA
  | .mk _ v _ _ _ _ _ _ _ => v

/-- Subclade children. -/
def CladeA.subclades : CladeA → List CladeA
  | .mk _ _ v _ _ _ _ _ _ => v

/-- `AgeSTR` field. -/
def CladeA.ageSTR : CladeA → ℝ
  | .mk _ _ _ v _ _ _ _ _ => v

/-- `STRCountDownstream` field. -/
def CladeA.strCountDownstream : CladeA → ℝ
  | .mk _ _ _ _ v _ _ _ _ => v

/-- `Sigma2` field. -/
def CladeA.sigma2 : CladeA → ℝ
  | .mk _ _ _ _ _ v _ _ _ => v

/-- `TMRCA_STR` field. -/
def CladeA.tmrca : CladeA → ℝ
  | .mk _ _ _ _ _ _ v _ _ => v

/-- `TMRCAlower` field. -/
def CladeA.tmrcaLower : CladeA → ℝ
  | .mk _ _ _ _ _ _ _ v _ => v

/-- `TMRCAupper` field. -/
def CladeA.tmrcaUpper : CladeA → ℝ
  | .mk _ _ _ _ _ _ _ _ v => v

/-- `newClade` from tree.go initialises `AgeSTR`, `STRCountDownstream` and
`TMRCA_STR` to `Uncertain`; the remaining statistics keep Go's zero value. -/
noncomputable def newCladeA (strCount : ℝ) (samples : List SampleA)
    (subclades : List CladeA) : CladeA :=
  .mk strCount samples subclades (Uncertain : ℝ) (Uncertain : ℝ) 0 (Uncertain : ℝ) 0 0

/-- The sample-branch entry of `CalculateAge` (tree.go): the average of the
positive sample counts with its Poisson variance, included only when the
variance is positive. -/
noncomputable def sampleBranchEntry (samples : List SampleA) : List (ℝ × ℝ) :=
  let nSamples : ℝ := samples.length
  if 0 < nSamples then
    let avgSamples :=
      (samples.map (fun s => if 0 < s.strCount then s.strCount else 0)).sum / nSamples
    let sigma2Samples := avgSamples / nSamples
    if 0 < sigma2Samples then [(avgSamples, sigma2Samples)] else []
  else []

/-- The subclade entries of `CalculateAge` (tree.go), computed from the
children after their own recursive call: each child with positive
`STRCount + Sigma2` contributes
`(STRCount + STRCountDownstream, STRCount + Sigma2)`. -/
noncomputable def subcladeEntries (subs : List CladeA) : List (ℝ × ℝ) :=
  subs.filterMap (fun s =>
    if 0 < s.strCount + s.sigma2
    then some (s.strCount + s.strCountDownstream, s.strCount + s.sigma2)
    else none)

mutual

/-- `CalculateAge` from tree.go: recurse into subclades, build the weighted
entries, and only when at least one entry was added overwrite the statistics
fields with the combined estimate, its variance, the age formulas and the
confidence bounds; with zero entries all statistics fields keep their
previous values. -/
noncomputable def CalculateAge (gentime calibration offset : ℝ) : CladeA → CladeA
  | .mk strCount samples subclades ageSTR down sigma2 tmrca tl tu =>
    let subs' := calculateAgeList gentime calibration offset subclades
    let entries := sampleBranchEntry samples ++ subcladeEntries subs'
    if 0 < entries.length then
      let avg := avgCalculatorAvg entries
      let ci := confidenceIntervals avg.1 avg.2
      .mk strCount samples subs'
        ((strCount + avg.1) * gentime * calibration + offset)
        avg.1 avg.2
        (avg.1 * gentime * calibration + offset)
        (ci.1 * gentime * calibration + offset)
        (ci.2 * gentime * calibration + offset)
    else
      .mk strCount samples subs' ageSTR down sigma2 tmrca tl tu

/-- The subclade recursion of `CalculateAge`. -/
noncomputable def calculateAgeList (gentime calibration offset : ℝ) :
    List CladeA → List CladeA
  | [] => []
  | c :: cs =>
    CalculateAge gentime calibration offset c ::
      calculateAgeList gentime calibration offset cs

end

/-- Low-side invariant of the `closestKey` fold over a processed prefix `p`
(target not yet matched exactly): either no key below the target has been
seen and the state still holds the zero-initialised `smallestMutation`, or
`smallestMutation` is the closest key below the target seen so far. -/
def LowInv (t : ℚ) (p : List ℚ) (st : CKState) : Prop :=
  ((∀ k ∈ p, ¬ k < t) ∧ st.smallestMutation = 0 ∧ st.lowDist = ⊤) ∨
  (st.smallestMutation ∈ p ∧ st.smallestMutation < t ∧
    st.lowDist = ((t - st.smallestMutation : ℚ) : WithTop ℚ) ∧
    ∀ k ∈ p, k < t → st.lowDist ≤ ((t - k : ℚ) : WithTop ℚ))

/-- High-side invariant of the `closestKey` fold, symmetric to `LowInv`. -/
def HighInv (t : ℚ) (p : List ℚ) (st : CKState) : Prop :=
  ((∀ k ∈ p, ¬ t < k) ∧ st.greatestMutation = 0 ∧ st.highDist = ⊤) ∨
  (st.greatestMutation ∈ p ∧ t < st.greatestMutation ∧
    st.highDist = ((st.greatestMutation - t : ℚ) : WithTop ℚ) ∧
    ∀ k ∈ p, t < k → st.highDist ≤ ((k - t : ℚ) : WithTop ℚ))

/-- Full invariant of the `closestKey` fold: an exact match freezes the
state, otherwise both side invariants hold. -/
def CKInv (t : ℚ) (p : List ℚ) (st : CKState) : Prop :=
  (t ∈ p ∧ st = ⟨t, t, 0, 0⟩) ∨ (t ∉ p ∧ LowInv t p st ∧ HighInv t p st)

/-! ## Lemmas on the parsimony scan -/

theorem parsStep_fst (td : ℚ → ℚ) (st : ℚ × WithTop ℚ) (x : ℚ) :
    (parsStep td st x).1 = x ∨ (parsStep td st x).1 = Uncertain ∨
      (parsStep td st x).1 = st.1 := by
  unfold parsStep
  split_ifs <;> simp

theorem parsStep_of_lt {td : ℚ → ℚ} {c : ℚ} {m : WithTop ℚ} {x : ℚ}
    (h : (td x : WithTop ℚ) < m) :
    parsStep td (c, m) x = (x, (td x : WithTop ℚ)) := by
  simp [parsStep, h]

theorem parsStep_of_tie {td : ℚ → ℚ} {c : ℚ} {m : WithTop ℚ} {x : ℚ}
    (_h1 : ¬ (td x : WithTop ℚ) < m) (h2 : (td x : WithTop ℚ) = m) (h3 : x ≠ c) :
    parsStep td (c, m) x = (Uncertain, m) := by
  simp [parsStep, h2, h3]

theorem parsStep_of_skip {td : ℚ → ℚ} {c : ℚ} {m : WithTop ℚ} {x : ℚ}
    (h1 : ¬ (td x : WithTop ℚ) < m) (h2 : ¬ ((td x : WithTop ℚ) = m ∧ x ≠ c)) :
    parsStep td (c, m) x = (c, m) := by
  simp only [parsStep]
  rw [if_neg h1, if_neg h2]

/-- Once the scan state is `(Uncertain, m)` with `m` the minimum of the
remaining scores, it stays there. -/
theorem parsScan_absorb (td : ℚ → ℚ) (m : ℚ) :
    ∀ l : List ℚ, (∀ x ∈ l, m ≤ td x) →
      l.foldl (parsStep td) (Uncertain, (m : WithTop ℚ)) =
        (Uncertain, (m : WithTop ℚ)) := by
  intro l
  induction l with
  | nil => intro _; rfl
  | cons x t ih =>
    intro hle
    have hx : m ≤ td x := hle x (by simp)
    have h1 : ¬ ((td x : WithTop ℚ) < (m : WithTop ℚ)) := by
      simp only [WithTop.coe_lt_coe, not_lt]; exact hx
    have hstep : parsStep td (Uncertain, (m : WithTop ℚ)) x =
        (Uncertain, (m : WithTop ℚ)) := by
      rcases eq_or_ne x Uncertain with hxu | hxu
      · exact parsStep_of_skip h1 (fun hcon => hcon.2 hxu)
      · by_cases h2 : (td x : WithTop ℚ) = (m : WithTop ℚ)
        · exact parsStep_of_tie h1 h2 hxu
        · exact parsStep_of_skip h1 (fun hcon => h2 hcon.1)
    rw [List.foldl_cons, hstep]
    exact ih (fun y hy => hle y (by simp [hy]))

/-- After one of the two minimizers has been recorded as the current result,
meeting the other one drives the scan to `Uncertain` for good. -/
theorem parsScan_one_seen (td : ℚ → ℚ) (a b : ℚ) (hab : a ≠ b)
    (hm : td a = td b) :
    ∀ l : List ℚ,
      (∀ x ∈ l, td a ≤ td x ∧ (td x = td a → x = a ∨ x = b)) →
      ∀ c : ℚ, (c = a ∧ b ∈ l) ∨ (c = b ∧ a ∈ l) →
      (l.foldl (parsStep td) (c, (td a : WithTop ℚ))).1 = Uncertain := by
  intro l
  induction l with
  | nil =>
    intro _ c hc
    rcases hc with ⟨_, hbl⟩ | ⟨_, hal⟩
    · exact absurd hbl (List.not_mem_nil b)
    · exact absurd hal (List.not_mem_nil a)
  | cons x t ih =>
    intro hmin c hc
    have hxmin : td a ≤ td x := (hmin x (by simp)).1
    have hxeq : td x = td a → x = a ∨ x = b := (hmin x (by simp)).2
    have hnotlt : ¬ ((td x : WithTop ℚ) < (td a : WithTop ℚ)) := by
      simp only [WithTop.coe_lt_coe, not_lt]; exact hxmin
    have htmin : ∀ y ∈ t, td a ≤ td y ∧ (td y = td a → y = a ∨ y = b) :=
      fun y hy => hmin y (by simp [hy])
    by_cases hxm : td x = td a
    · have hxmc : (td x : WithTop ℚ) = (td a : WithTop ℚ) := by
        rw [hxm]
      -- x is one of the two minimizers
      rcases hxeq hxm with hxa | hxb
      · rcases hc with ⟨hca, hbl⟩ | ⟨hcb, hal⟩
        · -- c = a, x = a: no change
          have hstep : parsStep td (c, (td a : WithTop ℚ)) x =
              (c, (td a : WithTop ℚ)) :=
            parsStep_of_skip hnotlt (fun hcon => hcon.2 (by rw [hxa, hca]))
          rw [List.foldl_cons, hstep]
          have hbt : b ∈ t := by
            rcases List.mem_cons.mp hbl with hbx | hbt
            · exact absurd (hxa ▸ hbx.symm) hab
            · exact hbt
          exact ih htmin c (Or.inl ⟨hca, hbt⟩)
        · -- c = b, x = a: tie with a different value → Uncertain
          have hxc : x ≠ c := by rw [hxa, hcb]; exact hab
          have hstep : parsStep td (c, (td a : WithTop ℚ)) x =
              (Uncertain, (td a : WithTop ℚ)) :=
            parsStep_of_tie hnotlt hxmc hxc
          rw [List.foldl_cons, hstep]
          have := parsScan_absorb td (td a) t (fun y hy => (htmin y hy).1)
          rw [this]
      · rcases hc with ⟨hca, hbl⟩ | ⟨hcb, hal⟩
        · -- c = a, x = b: tie with a different value → Uncertain
          have hxc : x ≠ c := by rw [hxb, hca]; exact fun hba => hab hba.symm
          have hstep : parsStep td (c, (td a : WithTop ℚ)) x =
              (Uncertain, (td a : WithTop ℚ)) :=
            parsStep_of_tie hnotlt hxmc hxc
          rw [List.foldl_cons, hstep]
          have := parsScan_absorb td (td a) t (fun y hy => (htmin y hy).1)
          rw [this]
        · -- c = b, x = b: no change
          have hstep : parsStep td (c, (td a : WithTop ℚ)) x =
              (c, (td a : WithTop ℚ)) :=
            parsStep_of_skip hnotlt (fun hcon => hcon.2 (by rw [hxb, hcb]))
          rw [List.foldl_cons, hstep]
          have hat : a ∈ t := by
            rcases List.mem_cons.mp hal with hax | hat
            · exact absurd (hxb ▸ hax.symm) (fun hba => hab hba.symm)
            · exact hat
          exact ih htmin c (Or.inr ⟨hcb, hat⟩)
    · -- strictly larger score: skipped
      have h2 : ¬ ((td x : WithTop ℚ) = (td a : WithTop ℚ)) := by
        simpa using hxm
      have hstep : parsStep td (c, (td a : WithTop ℚ)) x =
          (c, (td a : WithTop ℚ)) :=
        parsStep_of_skip hnotlt (fun hcon => h2 hcon.1)
      rw [List.foldl_cons, hstep]
      have hxa : x ≠ a := fun hxa => hxm (by rw [hxa])
      have hxb : x ≠ b := fun hxb => hxm (by rw [hxb, hm])
      rcases hc with ⟨hca, hbl⟩ | ⟨hcb, hal⟩
      · have hbt : b ∈ t := by
          rcases List.mem_cons.mp hbl with hbx | hbt
          · exact absurd hbx.symm hxb
          · exact hbt
        exact ih htmin c (Or.inl ⟨hca, hbt⟩)
      · have hat : a ∈ t := by
          rcases List.mem_cons.mp hal with hax | hat
          · exact absurd hax.symm hxa
          · exact hat
        exact ih htmin c (Or.inr ⟨hcb, hat⟩)

/-- Before any minimizer has been seen (the recorded distance is still above
the minimum), meeting both minimizers forces the final result `Uncertain`. -/
theorem parsScan_none_seen (td : ℚ → ℚ) (a b : ℚ) (hab : a ≠ b)
    (hm : td a = td b) :
    ∀ l : List ℚ,
      (∀ x ∈ l, td a ≤ td x ∧ (td x = td a → x = a ∨ x = b)) →
      a ∈ l → b ∈ l →
      ∀ st : ℚ × WithTop ℚ, (td a : WithTop ℚ) < st.2 →
      (l.foldl (parsStep td) st).1 = Uncertain := by
  intro l
  induction l with
  | nil => intro _ hal; simp at hal
  | cons x t ih =>
    intro hmin hal hbl st hlt
    have hxmin : td a ≤ td x := (hmin x (by simp)).1
    have hxeq : td x = td a → x = a ∨ x = b := (hmin x (by simp)).2
    have htmin : ∀ y ∈ t, td a ≤ td y ∧ (td y = td a → y = a ∨ y = b) :=
      fun y hy => hmin y (by simp [hy])
    by_cases hxm : td x = td a
    · -- the first minimizer appears: strict improvement
      have hxmc : (td x : WithTop ℚ) = (td a : WithTop ℚ) := by rw [hxm]
      have hltx : (td x : WithTop ℚ) < st.2 := by rw [hxmc]; exact hlt
      have hstep : parsStep td st x = (x, (td x : WithTop ℚ)) := by
        unfold parsStep
        rw [if_pos hltx]
      rw [List.foldl_cons, hstep, hxmc]
      rcases hxeq hxm with hxa | hxb
      · have hbt : b ∈ t := by
          rcases List.mem_cons.mp hbl with hbx | hbt
          · exact absurd (hxa ▸ hbx.symm) hab
          · exact hbt
        exact parsScan_one_seen td a b hab hm t htmin x (Or.inl ⟨hxa, hbt⟩)
      · have hat : a ∈ t := by
          rcases List.mem_cons.mp hal with hax | hat
          · exact absurd (hxb ▸ hax.symm) (fun hba => hab hba.symm)
          · exact hat
        exact parsScan_one_seen td a b hab hm t htmin x (Or.inr ⟨hxb, hat⟩)
    · -- still no minimizer seen
      have hxa : x ≠ a := fun h => hxm (by rw [h])
      have hxb : x ≠ b := fun h => hxm (by rw [h, hm])
      have hat : a ∈ t := by
        rcases List.mem_cons.mp hal with hax | hat
        · exact absurd hax.symm hxa
        · exact hat
      have hbt : b ∈ t := by
        rcases List.mem_cons.mp hbl with hbx | hbt
        · exact absurd hbx.symm hxb
        · exact hbt
      have hlt' : td a < td x := lt_of_le_of_ne hxmin (fun h => hxm h.symm)
      rw [List.foldl_cons]
      set st' := parsStep td st x with hst'
      have h2 : (td a : WithTop ℚ) < st'.2 := by
        rw [hst']
        unfold parsStep
        split_ifs with h1 h3
        · simpa using hlt'
        · exact hlt
        · exact hlt
      exact ih htmin hat hbt st' h2

/-- The final result of the scan is the initial result, `Uncertain`, or one
of the scanned values. -/
theorem parsScan_result_cases (td : ℚ → ℚ) :
    ∀ (l : List ℚ) (st : ℚ × WithTop ℚ),
      (l.foldl (parsStep td) st).1 = st.1 ∨
      (l.foldl (parsStep td) st).1 = Uncertain ∨
      (l.foldl (parsStep td) st).1 ∈ l := by
  intro l
  induction l with
  | nil => intro st; simp
  | cons x t ih =>
    intro st
    rw [List.foldl_cons]
    rcases ih (parsStep td st x) with h | h | h
    · rcases parsStep_fst td st x with h' | h' | h'
      · right; right; rw [h, h']; simp
      · right; left; rw [h, h']
      · left; rw [h, h']
    · right; left; exact h
    · right; right; simp [h]

/-! ## Claim C1: parsimony tie law -/

/-- **C1**: for every input value list in which exactly two distinct values
each achieve the minimal total distance to all contributing values, the
parsimony policy returns `Uncertain` instead of either tied value — for the
stepwise scorer `maxParsimony` (parsimony.go, candidates = positive values)
and for the infinite-alleles scorer `maximumParsimony` (modal.go, candidates
= all values).  Each scorer is governed by its own tie condition, stated
with respect to its own candidate list and scoring. -/
theorem claim1_parsimony_tie_law (values : List ℚ) :
    (∀ a b : ℚ, TieExactlyTwo
        (fun x => totalDist singleDistStep x (values.filter (fun v => 0 < v)))
        (values.filter (fun v => 0 < v)) a b →
      maxParsimony values = Uncertain) ∧
    (∀ a b : ℚ,
      TieExactlyTwo (fun x => totalDist singleDistInf x values) values a b →
      maximumParsimony values = Uncertain) := by
  constructor
  · intro a b hstep
    obtain ⟨hab, ha, hb, hm, hmin, honly⟩ := hstep
    unfold maxParsimony parsScan
    exact parsScan_none_seen _ a b hab hm _
      (fun x hx => ⟨hmin x hx, honly x hx⟩) ha hb _ (WithTop.coe_lt_top _)
  · intro a b hinf
    obtain ⟨hab, ha, hb, hm, hmin, honly⟩ := hinf
    unfold maximumParsimony parsScan
    exact parsScan_none_seen _ a b hab hm _
      (fun x hx => ⟨hmin x hx, honly x hx⟩) ha hb _ (WithTop.coe_lt_top _)

/-- Witness for C1, with a tie under one scorer at a time: `[1, 1, 2, 4]` has
an exactly-two stepwise tie (1 and 2, score 4 each) but no infinite-alleles
tie, while `[1, 1, 2, 2, 5]` has an exactly-two infinite-alleles tie (1 and
2, score 3 each) but no stepwise tie; the respective scorer returns
`Uncertain` in each case. -/
theorem claim1_parsimony_tie_law_witness :
    maxParsimony [1, 1, 2, 4] = Uncertain ∧
    maximumParsimony [1, 1, 2, 2, 5] = Uncertain :=
  ⟨(claim1_parsimony_tie_law [1, 1, 2, 4]).1 1 2
      (by norm_num [TieExactlyTwo, totalDist, singleDistStep]),
   (claim1_parsimony_tie_law [1, 1, 2, 2, 5]).2 1 2
      (by norm_num [TieExactlyTwo, totalDist, singleDistInf])⟩

/-! ## Claim C6: parsimony candidate restriction -/

/-- **C6 (amended)**: the stepwise scorer `maxParsimony` evaluates only the
positive contributing values: with no positive value it returns 0 (not a
contributed value), and with at least one positive value its result is
either `Uncertain` or a positive value from the input list. -/
theorem claim6_candidate_restriction (values : List ℚ) :
    (values.filter (fun v => 0 < v) = [] → maxParsimony values = 0) ∧
    (values.filter (fun v => 0 < v) ≠ [] →
      maxParsimony values = Uncertain ∨
        (0 < maxParsimony values ∧ maxParsimony values ∈ values)) := by
  constructor
  · intro hfil
    unfold maxParsimony
    rw [hfil]
    rfl
  · intro hfil
    obtain ⟨x, t, hxt⟩ := List.exists_cons_of_ne_nil hfil
    have hres : maxParsimony values =
        (t.foldl (parsStep (fun y => totalDist singleDistStep y
          (values.filter (fun v => 0 < v))))
          (x, (totalDist singleDistStep x (values.filter (fun v => 0 < v)) :
            WithTop ℚ))).1 := by
      unfold maxParsimony parsScan
      simp only [hxt]
      rw [List.foldl_cons, parsStep_of_lt (WithTop.coe_lt_top _)]
    rcases parsScan_result_cases
        (fun y => totalDist singleDistStep y (values.filter (fun v => 0 < v))) t
        (x, (totalDist singleDistStep x (values.filter (fun v => 0 < v)) :
          WithTop ℚ)) with hc | hc | hc
    · right
      have hxf : x ∈ values.filter (fun v => 0 < v) := by
        rw [hxt]; exact List.mem_cons_self x t
      have := List.mem_filter.mp hxf
      rw [hres, hc]
      exact ⟨by simpa using this.2, this.1⟩
    · left
      rw [hres, hc]
    · right
      have hxf : maxParsimony values ∈ values.filter (fun v => 0 < v) := by
        rw [hxt]
        refine List.mem_cons_of_mem x ?_
        rw [hres]; exact hc
      have := List.mem_filter.mp hxf
      exact ⟨by simpa using this.2, this.1⟩

/-- Counterexample for C6 as stated: the pipeline's parsimony scorer
`maximumParsimony` (modal.go) does not exclude absent (0) entries; on the
value list `[0, 0, 5]` it returns 0 — neither a positive contributed value
nor `Uncertain` — because the absent entries outvote the single positive
value. -/
theorem claim6_counterexample :
    maximumParsimony [0, 0, 5] = 0 ∧ ¬ 0 < (0 : ℚ) ∧ (0 : ℚ) ≠ Uncertain := by
  norm_num [maximumParsimony, parsScan, parsStep, totalDist, singleDistInf,
    Uncertain]

/-! ## Lemmas on the closestKey fold -/

theorem ckStep_low_update {t x : ℚ} {st : CKState} (hx : x - t < 0)
    (hd : ((|x - t| : ℚ) : WithTop ℚ) < st.lowDist) :
    ckStep t st x =
      { st with lowDist := ((|x - t| : ℚ) : WithTop ℚ), smallestMutation := x } := by
  simp [ckStep, hx, hd]

theorem ckStep_low_skip {t x : ℚ} {st : CKState} (hx : x - t < 0)
    (hd : ¬ ((|x - t| : ℚ) : WithTop ℚ) < st.lowDist) :
    ckStep t st x = st := by
  simp [ckStep, hx, hd]

theorem ckStep_high_update {t x : ℚ} {st : CKState} (hx : 0 < x - t)
    (hd : ((|x - t| : ℚ) : WithTop ℚ) < st.highDist) :
    ckStep t st x =
      { st with highDist := ((|x - t| : ℚ) : WithTop ℚ), greatestMutation := x } := by
  have hx' : ¬ x - t < 0 := by linarith
  simp [ckStep, hx, hx', hd]

theorem ckStep_high_skip {t x : ℚ} {st : CKState} (hx : 0 < x - t)
    (hd : ¬ ((|x - t| : ℚ) : WithTop ℚ) < st.highDist) :
    ckStep t st x = st := by
  have hx' : ¬ x - t < 0 := by linarith
  simp [ckStep, hx, hx', hd]

theorem ckStep_exact {t : ℚ} {st : CKState} :
    ckStep t st t = ⟨t, t, 0, 0⟩ := by
  simp [ckStep]

/-- One fold step preserves the `closestKey` invariant. -/
theorem ckStep_inv {t : ℚ} {p : List ℚ} {st : CKState} (x : ℚ)
    (hinv : CKInv t p st) : CKInv t (p ++ [x]) (ckStep t st x) := by
  rcases hinv with ⟨htp, hst⟩ | ⟨htp, hlow, hhigh⟩
  · -- exact match already seen: the state is frozen
    subst hst
    rcases lt_trichotomy x t with hxt | hxt | hxt
    · have hx : x - t < 0 := by linarith
      have habs : |x - t| = t - x := by
        rw [abs_of_neg hx]; ring
      have hd : ¬ ((|x - t| : ℚ) : WithTop ℚ) < (⟨t, t, 0, 0⟩ : CKState).lowDist := by
        simp only [habs]
        simp only [not_lt]
        exact_mod_cast by linarith
      rw [ckStep_low_skip hx hd]
      exact Or.inl ⟨by simp [htp], rfl⟩
    · subst hxt
      rw [ckStep_exact]
      exact Or.inl ⟨by simp, rfl⟩
    · have hx : 0 < x - t := by linarith
      have habs : |x - t| = x - t := abs_of_pos hx
      have hd : ¬ ((|x - t| : ℚ) : WithTop ℚ) < (⟨t, t, 0, 0⟩ : CKState).highDist := by
        simp only [habs]
        simp only [not_lt]
        exact_mod_cast by linarith
      rw [ckStep_high_skip hx hd]
      exact Or.inl ⟨by simp [htp], rfl⟩
  · -- no exact match yet
    rcases lt_trichotomy x t with hxt | hxt | hxt
    · -- x below the target: high side untouched
      have hx : x - t < 0 := by linarith
      have habs : |x - t| = t - x := by
        rw [abs_of_neg hx]; ring
      have htpx : t ∉ p ++ [x] := by
        simp only [List.mem_append, List.mem_singleton]
        rintro (h | h)
        · exact htp h
        · exact absurd h.symm (ne_of_lt hxt)
      have hhigh' : ∀ st' : CKState,
          st'.greatestMutation = st.greatestMutation → st'.highDist = st.highDist →
          HighInv t (p ++ [x]) st' := by
        intro st' hg hh
        rcases hhigh with ⟨hnone, hgm, hhd⟩ | ⟨hgm, hgt, hhd, hmin⟩
        · refine Or.inl ⟨?_, hg ▸ hgm, hh ▸ hhd⟩
          intro k hk
          rcases List.mem_append.mp hk with hk | hk
          · exact hnone k hk
          · rw [List.mem_singleton.mp hk]; exact fun h => absurd hxt (asymm h)
        · refine Or.inr ⟨?_, hg ▸ hgt, by rw [hh, hg]; exact hhd, ?_⟩
          · exact List.mem_append.mpr (Or.inl (hg ▸ hgm))
          · intro k hk hkt
            rcases List.mem_append.mp hk with hk | hk
            · exact hh ▸ hmin k hk hkt
            · rw [List.mem_singleton.mp hk] at hkt
              exact absurd hxt (asymm hkt)
      by_cases hd : ((|x - t| : ℚ) : WithTop ℚ) < st.lowDist
      · rw [ckStep_low_update hx hd]
        refine Or.inr ⟨htpx, ?_, hhigh' _ rfl rfl⟩
        refine Or.inr ⟨by simp, by simpa using hxt, by rw [habs], ?_⟩
        intro k hk hkt
        simp only [habs]
        rcases List.mem_append.mp hk with hk | hk
        · rcases hlow with ⟨hnone, _, _⟩ | ⟨hsm, hst2, hld, hmin⟩
          · exact absurd hkt (hnone k hk)
          · have h1 : ((t - x : ℚ) : WithTop ℚ) ≤ st.lowDist := le_of_lt (habs ▸ hd)
            exact le_trans h1 (hmin k hk hkt)
        · rw [List.mem_singleton.mp hk]
      · rw [ckStep_low_skip hx hd]
        refine Or.inr ⟨htpx, ?_, hhigh' _ rfl rfl⟩
        rcases hlow with ⟨hnone, hsm, hld⟩ | ⟨hsm, hst2, hld, hmin⟩
        · exfalso
          rw [hld] at hd
          exact hd (WithTop.coe_lt_top _)
        · refine Or.inr ⟨List.mem_append.mpr (Or.inl hsm), hst2, hld, ?_⟩
          intro k hk hkt
          rcases List.mem_append.mp hk with hk | hk
          · exact hmin k hk hkt
          · rw [List.mem_singleton.mp hk]
            rw [← habs]
            exact not_lt.mp hd
    · -- exact match
      subst hxt
      rw [ckStep_exact]
      exact Or.inl ⟨by simp, rfl⟩
    · -- x above the target: low side untouched
      have hx : 0 < x - t := by linarith
      have habs : |x - t| = x - t := abs_of_pos hx
      have htpx : t ∉ p ++ [x] := by
        simp only [List.mem_append, List.mem_singleton]
        rintro (h | h)
        · exact htp h
        · exact absurd h (ne_of_lt hxt)
      have hlow' : ∀ st' : CKState,
          st'.smallestMutation = st.smallestMutation → st'.lowDist = st.lowDist →
          LowInv t (p ++ [x]) st' := by
        intro st' hg hh
        rcases hlow with ⟨hnone, hgm, hhd⟩ | ⟨hgm, hgt, hhd, hmin⟩
        · refine Or.inl ⟨?_, hg ▸ hgm, hh ▸ hhd⟩
          intro k hk
          rcases List.mem_append.mp hk with hk | hk
          · exact hnone k hk
          · rw [List.mem_singleton.mp hk]; exact fun h => absurd hxt (asymm h)
        · refine Or.inr ⟨?_, hg ▸ hgt, by rw [hh, hg]; exact hhd, ?_⟩
          · exact List.mem_append.mpr (Or.inl (hg ▸ hgm))
          · intro k hk hkt
            rcases List.mem_append.mp hk with hk | hk
            · exact hh ▸ hmin k hk hkt
            · rw [List.mem_singleton.mp hk] at hkt
              exact absurd hxt (asymm hkt)
      by_cases hd : ((|x - t| : ℚ) : WithTop ℚ) < st.highDist
      · rw [ckStep_high_update hx hd]
        refine Or.inr ⟨htpx, hlow' _ rfl rfl, ?_⟩
        refine Or.inr ⟨by simp, by simpa using hxt, by rw [habs], ?_⟩
        intro k hk hkt
        simp only [habs]
        rcases List.mem_append.mp hk with hk | hk
        · rcases hhigh with ⟨hnone, _, _⟩ | ⟨hsm, hst2, hld, hmin⟩
          · exact absurd hkt (hnone k hk)
          · have h1 : ((x - t : ℚ) : WithTop ℚ) ≤ st.highDist := le_of_lt (habs ▸ hd)
            exact le_trans h1 (hmin k hk hkt)
        · rw [List.mem_singleton.mp hk]
      · rw [ckStep_high_skip hx hd]
        refine Or.inr ⟨htpx, hlow' _ rfl rfl, ?_⟩
        rcases hhigh with ⟨hnone, hsm, hld⟩ | ⟨hsm, hst2, hld, hmin⟩
        · exfalso
          rw [hld] at hd
          exact hd (WithTop.coe_lt_top _)
        · refine Or.inr ⟨List.mem_append.mpr (Or.inl hsm), hst2, hld, ?_⟩
          intro k hk hkt
          rcases List.mem_append.mp hk with hk | hk
          · exact hmin k hk hkt
          · rw [List.mem_singleton.mp hk]
            rw [← habs]
            exact not_lt.mp hd

/-- The `closestKey` fold satisfies the invariant over the whole key list. -/
theorem ckFold_inv (t : ℚ) :
    ∀ (l p : List ℚ) (st : CKState), CKInv t p st →
      CKInv t (p ++ l) (l.foldl (ckStep t) st) := by
  intro l
  induction l with
  | nil => intro p st h; simpa using h
  | cons x xs ih =>
    intro p st h
    have h1 := ckStep_inv x h
    have h2 := ih (p ++ [x]) (ckStep t st x) h1
    simpa [List.append_assoc] using h2

/-- The `closestKey` fold over the full key list, starting at the
zero-initialised state. -/
theorem ckFold_inv_init (t : ℚ) (keys : List ℚ) :
    CKInv t keys (keys.foldl (ckStep t) ⟨0, 0, ⊤, ⊤⟩) := by
  have h0 : CKInv t [] (⟨0, 0, ⊤, ⊤⟩ : CKState) := by
    refine Or.inr ⟨by simp, Or.inl ⟨by simp, rfl, rfl⟩, Or.inl ⟨by simp, rfl, rfl⟩⟩
  simpa using ckFold_inv t keys [] _ h0

/-! ## Claim C3: nearest-neighbor rule -/

/-- **C3**: `closestKey` returns a non-positive target unchanged and marked
unique; for a positive target it returns the strictly closest observed value
marked unique, and when the closest observed values below and above the
target are equidistant it returns the lower one marked non-unique; in
particular target `7/2` against `{2, 5}` returns `2` with uniqueness
`false`. -/
theorem claim3_nearest_neighbor_rule :
    (∀ (target : ℚ) (keys : List ℚ), target ≤ 0 →
      closestKey target keys = (target, true)) ∧
    (∀ (target k : ℚ) (keys : List ℚ), 0 < target → k ∈ keys →
      (∀ k' ∈ keys, k' ≠ k → |k - target| < |k' - target|) →
      closestKey target keys = (k, true)) ∧
    (∀ (target k₁ k₂ : ℚ) (keys : List ℚ), 0 < target →
      k₁ ∈ keys → k₂ ∈ keys → k₁ < target → target < k₂ →
      target - k₁ = k₂ - target →
      (∀ k' ∈ keys, target - k₁ ≤ |k' - target|) →
      closestKey target keys = (k₁, false)) ∧
    closestKey (7/2) [2, 5] = (2, false) := by
  refine ⟨?_, ?_, ?_, ?_⟩
  · intro target keys h
    simp [closestKey, h]
  · -- unique strictly closest key
    intro t k keys ht hk hcl
    have hnot : ¬ t ≤ 0 := not_le.mpr ht
    unfold closestKey
    rw [if_neg hnot]
    rcases ckFold_inv_init t keys with ⟨htk, hst⟩ | ⟨htk, hlow, hhigh⟩
    · -- exact match: the unique closest key is the target itself
      have hkt : k = t := by
        by_contra hne
        have h1 := hcl t htk (fun h => hne h.symm)
        rw [sub_self, abs_zero] at h1
        exact absurd h1 (not_lt.mpr (abs_nonneg _))
      rw [hst, hkt]
      simp
    · have hkne : k ≠ t := fun h => htk (h ▸ hk)
      set st := keys.foldl (ckStep t) ⟨0, 0, ⊤, ⊤⟩ with hstdef
      rcases lt_or_gt_of_ne hkne with hklt | hkgt
      · -- k is below the target
        rcases hlow with ⟨hnone, _, _⟩ | ⟨hsmem, hslt, hld, hmin⟩
        · exact absurd hklt (hnone k hk)
        have hsk : st.smallestMutation = k := by
          by_contra hne
          have h1 := hcl st.smallestMutation hsmem hne
          have h2 : st.lowDist ≤ ((t - k : ℚ) : WithTop ℚ) := hmin k hk hklt
          rw [hld] at h2
          have h2' : t - st.smallestMutation ≤ t - k := by exact_mod_cast h2
          rw [abs_of_neg (by linarith : k - t < 0),
            abs_of_neg (by linarith : st.smallestMutation - t < 0)] at h1
          linarith
        rcases hhigh with ⟨_, hgm, hhd⟩ | ⟨hgmem, hgt, hhd, _⟩
        · -- no key above the target
          by_cases hk0 : k = 0
          · rw [if_pos (by rw [hsk, hgm, hk0])]
            rw [hsk, hk0]
          · rw [if_neg (by rw [hsk, hgm]; exact hk0)]
            rw [if_neg (by rw [hld, hhd]; exact WithTop.coe_ne_top)]
            rw [if_pos (by rw [hld, hhd]; exact WithTop.coe_lt_top _)]
            rw [hsk]
        · -- there is a key above, strictly farther away
          have hgk : st.greatestMutation ≠ k := by
            intro h
            rw [h] at hgt
            exact absurd (lt_trans hklt hgt) (lt_irrefl k)
          have h1 := hcl st.greatestMutation hgmem hgk
          rw [abs_of_neg (by linarith : k - t < 0),
            abs_of_pos (by linarith : 0 < st.greatestMutation - t)] at h1
          have h1' : t - k < st.greatestMutation - t := by
            calc t - k = -(k - t) := by ring
            _ < st.greatestMutation - t := by
                have := neg_lt_neg h1
                simpa using h1
          rw [if_neg (by rw [hsk]; intro h; rw [← h] at hgt; linarith)]
          rw [if_neg (by
            rw [hld, hhd, hsk]
            intro h
            have : t - k = st.greatestMutation - t := by exact_mod_cast h
            linarith)]
          rw [if_pos (by
            rw [hld, hhd, hsk]
            exact_mod_cast h1')]
          rw [hsk]
      · -- k is above the target
        rcases hhigh with ⟨hnone, _, _⟩ | ⟨hgmem, hgt, hhd, hminh⟩
        · exact absurd hkgt (hnone k hk)
        have hgk : st.greatestMutation = k := by
          by_contra hne
          have h1 := hcl st.greatestMutation hgmem hne
          have h2 : st.highDist ≤ ((k - t : ℚ) : WithTop ℚ) := hminh k hk hkgt
          rw [hhd] at h2
          have h2' : st.greatestMutation - t ≤ k - t := by exact_mod_cast h2
          rw [abs_of_pos (by linarith : 0 < k - t),
            abs_of_pos (by linarith : 0 < st.greatestMutation - t)] at h1
          linarith
        rcases hlow with ⟨_, hsm, hld⟩ | ⟨hsmem, hslt, hld, _⟩
        · -- no key below the target
          have hk0 : k ≠ 0 := by intro h; rw [h] at hkgt; linarith
          rw [if_neg (by rw [hsm, hgk]; exact fun h => hk0 h.symm)]
          rw [if_neg (by rw [hld, hhd]; exact fun h => WithTop.coe_ne_top h.symm)]
          rw [if_neg (by rw [hld, hhd]; exact not_lt.mpr le_top)]
          rw [hgk]
        · -- there is a key below, strictly farther away
          have hsk : st.smallestMutation ≠ k := by
            intro h
            rw [h] at hslt
            exact absurd (lt_trans hkgt hslt) (lt_irrefl t)
          have h1 := hcl st.smallestMutation hsmem hsk
          rw [abs_of_pos (by linarith : 0 < k - t),
            abs_of_neg (by linarith : st.smallestMutation - t < 0)] at h1
          have h1' : k - t < t - st.smallestMutation := by
            have h2 : -(st.smallestMutation - t) = t - st.smallestMutation := by ring
            rw [h2] at h1
            exact h1
          rw [if_neg (by rw [hgk]; intro h; rw [h] at hslt; linarith)]
          rw [if_neg (by
            rw [hld, hhd, hgk]
            intro h
            have : t - st.smallestMutation = k - t := by exact_mod_cast h
            linarith)]
          rw [if_neg (by
            rw [hld, hhd, hgk]
            intro h
            have : t - st.smallestMutation < k - t := by exact_mod_cast h
            linarith)]
          rw [hgk]
  · -- equidistant keys on both sides
    intro t k₁ k₂ keys ht hk₁ hk₂ h₁t ht₂ heq hmind
    have hd : 0 < t - k₁ := by linarith
    have hnot : ¬ t ≤ 0 := not_le.mpr ht
    unfold closestKey
    rw [if_neg hnot]
    rcases ckFold_inv_init t keys with ⟨htk, _⟩ | ⟨htk, hlow, hhigh⟩
    · have h1 := hmind t htk
      rw [sub_self, abs_zero] at h1
      linarith
    · set st := keys.foldl (ckStep t) ⟨0, 0, ⊤, ⊤⟩ with hstdef
      rcases hlow with ⟨hnone, _, _⟩ | ⟨hsmem, hslt, hld, hmin⟩
      · exact absurd h₁t (hnone k₁ hk₁)
      rcases hhigh with ⟨hnone, _, _⟩ | ⟨hgmem, hgt, hhd, hminh⟩
      · exact absurd ht₂ (hnone k₂ hk₂)
      have hs : st.smallestMutation = k₁ := by
        have h2 : st.lowDist ≤ ((t - k₁ : ℚ) : WithTop ℚ) := hmin k₁ hk₁ h₁t
        rw [hld] at h2
        have h2' : t - st.smallestMutation ≤ t - k₁ := by exact_mod_cast h2
        have h3 := hmind st.smallestMutation hsmem
        rw [abs_of_neg (by linarith : st.smallestMutation - t < 0)] at h3
        have h3' : t - k₁ ≤ t - st.smallestMutation := by
          calc t - k₁ ≤ -(st.smallestMutation - t) := h3
          _ = t - st.smallestMutation := by ring
        linarith
      have hg : st.greatestMutation = k₂ := by
        have h2 : st.highDist ≤ ((k₂ - t : ℚ) : WithTop ℚ) := hminh k₂ hk₂ ht₂
        rw [hhd] at h2
        have h2' : st.greatestMutation - t ≤ k₂ - t := by exact_mod_cast h2
        have h3 := hmind st.greatestMutation hgmem
        rw [abs_of_pos (by linarith : 0 < st.greatestMutation - t)] at h3
        linarith
      rw [if_neg (by rw [hs, hg]; intro h; rw [h] at h₁t; linarith)]
      rw [if_pos (by
        rw [hld, hhd, hs, hg]
        exact_mod_cast by linarith)]
      rw [hs]
  · norm_num [closestKey, ckStep]

/-- Witness for C3: the three general parts applied at concrete inputs
(non-positive target; target 4 against `{3, 10}` with 3 strictly closest;
target `7/2` against `{2, 5}` equidistant). -/
theorem claim3_nearest_neighbor_rule_witness :
    closestKey (-2) [5] = (-2, true) ∧
    closestKey 4 [3, 10] = (3, true) ∧
    closestKey (7/2) [2, 5] = (2, false) :=
  ⟨claim3_nearest_neighbor_rule.1 (-2) [5] (by norm_num),
   claim3_nearest_neighbor_rule.2.1 4 3 [3, 10] (by norm_num) (by norm_num)
     (by
       intro k' hk' hne
       rcases List.mem_cons.mp hk' with h | h
       · exact absurd h hne
       · rw [List.mem_singleton.mp h]; norm_num),
   claim3_nearest_neighbor_rule.2.2.1 (7/2) 2 5 [2, 5] (by norm_num)
     (by norm_num) (by norm_num) (by norm_num) (by norm_num) (by norm_num)
     (by
       intro k' hk'
       rcases List.mem_cons.mp hk' with h | h
       · rw [h, abs_of_neg (by norm_num : (2:ℚ) - 7/2 < 0)]
         norm_num
       · rw [List.mem_singleton.mp h, abs_of_pos (by norm_num : (0:ℚ) < 5 - 7/2)]
         norm_num)⟩

/-! ## Claim C4: weight normalization -/

/-- **C4**: for every non-empty entry list with positive values and positive
variances fed to `avgCalculator.avg`, the computed weights sum to 1; and if
all entries are equal then every weight is `1/N`. -/
theorem claim4_weight_normalization (entries : List (ℝ × ℝ))
    (hne : entries ≠ [])
    (hpos : ∀ e ∈ entries, 0 < e.1 ∧ 0 < e.2) :
    (entries.map (entryWeight entries)).sum = 1 ∧
    ∀ a s : ℝ, (∀ e ∈ entries, e = (a, s)) →
      ∀ e ∈ entries, entryWeight entries e = 1 / (entries.length : ℝ) := by
  have hT : 0 < weightsTotal entries := by
    unfold weightsTotal
    refine List.sum_pos _ ?_ (by simpa using hne)
    intro x hx
    obtain ⟨e, he, rfl⟩ := List.mem_map.mp hx
    exact div_pos (hpos e he).1 (hpos e he).2
  have hTne : weightsTotal entries ≠ 0 := ne_of_gt hT
  constructor
  · have h1 : (entries.map (entryWeight entries)).sum
        = (entries.map (fun e => e.1 / e.2)).sum * (weightsTotal entries)⁻¹ := by
      rw [← List.sum_map_mul_right]
      congr 1
      apply List.map_congr_left
      intro e _
      rw [entryWeight, div_mul_eq_div_div_swap, div_eq_mul_inv]
    rw [h1]
    have h2 : (entries.map (fun e => e.1 / e.2)).sum = weightsTotal entries := rfl
    rw [h2]
    exact mul_inv_cancel₀ hTne
  · intro a s hall e he
    have has := hpos e he
    rw [hall e he] at has
    obtain ⟨ha, hs⟩ := has
    have hTval : weightsTotal entries = (entries.length : ℝ) * (a / s) := by
      unfold weightsTotal
      have hmap : entries.map (fun e => e.1 / e.2)
          = List.replicate (entries.map (fun e => e.1 / e.2)).length (a / s) := by
        apply List.eq_replicate_of_mem
        intro b hb
        obtain ⟨e', he', rfl⟩ := List.mem_map.mp hb
        rw [hall e' he']
      rw [hmap, List.sum_replicate, List.length_map, nsmul_eq_mul]
    have hN : (0:ℝ) < (entries.length : ℝ) := by
      exact_mod_cast List.length_pos.mpr hne
    rw [entryWeight, hall e he, hTval]
    field_simp
    ring

/-- Witness for C4 at two equal entries `(2, 1)`: the weights sum to 1 and
each weight is `1/2`. -/
theorem claim4_weight_normalization_witness :
    (([((2:ℝ), (1:ℝ)), (2, 1)]).map (entryWeight [((2:ℝ), (1:ℝ)), (2, 1)])).sum = 1 ∧
    ∀ e ∈ [((2:ℝ), (1:ℝ)), (2, 1)], entryWeight [((2:ℝ), (1:ℝ)), (2, 1)] e = 1/2 := by
  have h := claim4_weight_normalization [((2:ℝ), (1:ℝ)), (2, 1)]
    (by simp)
    (by intro e he; rcases List.mem_cons.mp he with h | h
        · rw [h]; norm_num
        · rw [List.mem_singleton.mp h]; norm_num)
  refine ⟨h.1, ?_⟩
  intro e he
  have h2 := h.2 2 1
    (by intro e' he'; rcases List.mem_cons.mp he' with h' | h'
        · exact h'
        · exact List.mem_singleton.mp h') e he
  rw [h2]
  norm_num

/-! ## Claim C8: zero-entry combiner behavior -/

/-- **C8**: when zero entries qualify for the weighted combination of
`CalculateAge` (no sample branch and no subclade branch has positive
variance), all statistics fields of the clade — downstream estimate, its
variance, and the age/TMRCA/confidence fields — keep their previous values
instead of being set to zero. -/
theorem claim8_zero_entry_combiner (gentime calibration offset : ℝ) (c : CladeA)
    (hempty : sampleBranchEntry c.samples
      ++ subcladeEntries (calculateAgeList gentime calibration offset c.subclades)
      = []) :
    (CalculateAge gentime calibration offset c).strCountDownstream
      = c.strCountDownstream ∧
    (CalculateAge gentime calibration offset c).sigma2 = c.sigma2 ∧
    (CalculateAge gentime calibration offset c).tmrca = c.tmrca ∧
    (CalculateAge gentime calibration offset c).ageSTR = c.ageSTR ∧
    (CalculateAge gentime calibration offset c).tmrcaLower = c.tmrcaLower ∧
    (CalculateAge gentime calibration offset c).tmrcaUpper = c.tmrcaUpper := by
  obtain ⟨sc, samples, subs, age, down, s2, tm, tl, tu⟩ := c
  simp only [CladeA.samples, CladeA.subclades] at hempty
  rw [CalculateAge]
  simp only [hempty, List.length_nil, lt_irrefl, if_false]
  simp [CladeA.strCountDownstream, CladeA.sigma2, CladeA.tmrca, CladeA.ageSTR,
    CladeA.tmrcaLower, CladeA.tmrcaUpper]

/-- Witness for C8: a childless clade initialised by `newClade` keeps its
`Uncertain` downstream/TMRCA/age fields (and `Uncertain ≠ 0`). -/
theorem claim8_zero_entry_combiner_witness :
    (CalculateAge 32 1 0 (newCladeA 0 [] [])).strCountDownstream = (Uncertain : ℝ) ∧
    (CalculateAge 32 1 0 (newCladeA 0 [] [])).tmrca = (Uncertain : ℝ) ∧
    (CalculateAge 32 1 0 (newCladeA 0 [] [])).ageSTR = (Uncertain : ℝ) ∧
    (Uncertain : ℝ) ≠ 0 := by
  have hempty : sampleBranchEntry (newCladeA 0 [] []).samples
      ++ subcladeEntries
        (calculateAgeList 32 1 0 (newCladeA 0 [] []).subclades) = [] := by
    simp [newCladeA, CladeA.samples, CladeA.subclades, sampleBranchEntry,
      subcladeEntries, calculateAgeList]
  have h := claim8_zero_entry_combiner 32 1 0 (newCladeA 0 [] []) hempty
  refine ⟨?_, ?_, ?_, ?_⟩
  · rw [h.1]; simp [newCladeA, CladeA.strCountDownstream]
  · rw [h.2.2.1]; simp [newCladeA, CladeA.tmrca]
  · rw [h.2.2.2.1]; simp [newCladeA, CladeA.ageSTR]
  · norm_num [Uncertain]

/-! ## Heap access lemmas -/

theorem hset_length (h : Heap) (r : ℕ) (p : PersonR) :
    (hset h r p).length = h.length := by
  simp [hset]

theorem hget_hset_self {h : Heap} {r : ℕ} (p : PersonR) (hr : r < h.length) :
    hget (hset h r p) r = p := by
  simp [hget, hset, List.getD, List.getElem?_set_self', hr]

theorem hget_hset_other {h : Heap} {r r' : ℕ} (p : PersonR) (hne : r' ≠ r) :
    hget (hset h r p) r' = hget h r' := by
  simp [hget, hset, List.getD, List.getElem?_set_ne (fun hh => hne hh.symm)]

theorem hget_append_self (h : Heap) (p : PersonR) :
    hget (h ++ [p]) h.length = p := by
  simp [hget, List.getD, List.getElem?_concat_length]

theorem hget_append_lt {h : Heap} {r : ℕ} (p : PersonR) (hr : r < h.length) :
    hget (h ++ [p]) r = hget h r := by
  simp [hget, List.getD, List.getElem?_append_left hr]

theorem rangeMap_getElem (n : ℕ) (f : ℕ → ℚ) (j : ℕ) :
    ((List.range n).map f)[j]? = if j < n then some (f j) else none := by
  rcases Nat.lt_or_ge j n with hj | hj
  · rw [if_pos hj]
    rw [List.getElem?_map, List.getElem?_range hj]
    rfl
  · rw [if_neg (not_lt.mpr hj)]
    rw [List.getElem?_map]
    have : (List.range n)[j]? = none := by
      rw [List.getElem?_eq_none]
      simpa using hj
    rw [this]
    rfl

theorem rangeMap_getD (n : ℕ) (f : ℕ → ℚ) (j : ℕ) :
    ((List.range n).map f).getD j 0 = if j < n then f j else 0 := by
  rw [List.getD_eq_getElem?_getD, rangeMap_getElem]
  split_ifs <;> rfl

theorem avgMarker_of_nonpos {values : List ℚ} (hv : ∀ v ∈ values, v ≤ 0) :
    avgMarker values = 0 := by
  unfold avgMarker
  have : values.filter (fun v => 0 < v) = [] := by
    rw [List.filter_eq_nil_iff]
    intro v hvv
    simpa using not_lt.mpr (hv v hvv)
  rw [this]
  simp


theorem getD_replicate_zero (n j : ℕ) :
    (List.replicate n (0:ℚ)).getD j 0 = 0 := by
  simp [List.getD, List.getElem?_replicate]
  split_ifs <;> rfl

/-- With other than exactly one person, `averageHaplotype` allocates a fresh
person at the end of the heap. -/
theorem avgF_shape_of_ne_one (n : ℕ) (persons : List ℕ) (h : Heap)
    (hone : persons.length ≠ 1) :
    (averageHaplotypeF n persons h).2 = h.length ∧
    (averageHaplotypeF n persons h).1.length = h.length + 1 ∧
    (∀ r, r < h.length → hget (averageHaplotypeF n persons h).1 r = hget h r) := by
  rcases persons with _ | ⟨p, _ | ⟨q, rest⟩⟩
  · refine ⟨rfl, by simp [averageHaplotypeF, halloc], ?_⟩
    intro r hr
    exact hget_append_lt _ hr
  · exact absurd rfl hone
  · refine ⟨rfl, by simp [averageHaplotypeF, halloc], ?_⟩
    intro r hr
    exact hget_append_lt _ hr

/-- With other than exactly one person and no positive contribution at slot
`j`, the modal person of `averageHaplotype` holds `0` at slot `j`. -/
theorem avgF_slot_of_nonpos (n : ℕ) (persons : List ℕ) (h : Heap) (j : ℕ)
    (hone : persons.length ≠ 1)
    (hcontrib : ∀ r ∈ persons, (hget h r).markers.getD j 0 ≤ 0) :
    (hget (averageHaplotypeF n persons h).1
      (averageHaplotypeF n persons h).2).markers.getD j 0 = 0 := by
  rcases persons with _ | ⟨p, _ | ⟨q, rest⟩⟩
  · show (hget (h ++ [_]) h.length).markers.getD j 0 = 0
    rw [hget_append_self]
    exact getD_replicate_zero n j
  · exact absurd rfl hone
  · show (hget (h ++ [_]) h.length).markers.getD j 0 = 0
    rw [hget_append_self]
    show (modalMarkers n _ _).getD j 0 = 0
    rw [modalMarkers, rangeMap_getD]
    split_ifs with hjn hjl
    · apply avgMarker_of_nonpos
      intro v hv
      rw [slotValues] at hv
      obtain ⟨r, hrmem, rfl⟩ := List.mem_map.mp hv
      exact hcontrib r hrmem
    · rfl
    · rfl

/-- Reading a merged vector at an `Uncertain` slot of the target gives the
source value. -/
theorem mergeUncertain_at_uncertain {target source : List ℚ} {j : ℕ}
    (hj : target[j]? = some Uncertain) :
    (mergeUncertain target source)[j]? = some (source.getD j 0) := by
  have hjl : j < target.length := by
    by_contra hge
    rw [List.getElem?_eq_none (by omega)] at hj
    exact Option.noConfusion hj
  have ht : target.getD j 0 = Uncertain := by
    simp [List.getD, hj]
  rw [mergeUncertain, rangeMap_getElem, if_pos hjl]
  simp [List.getD, hj]

/-! ## Claim C5: averaging zero-contributor behaviour -/

/-- Counterexample for C5 as stated: a clade whose person has an `Uncertain`
slot and whose two samples both have `0` (absent) at that slot; the stage-2
averaging pass (`calculateHaplotypes` with `averageHaplotype`) overwrites
the `Uncertain` slot with `0` instead of leaving it `Uncertain`. -/
theorem claim5_counterexample :
    (hget (calculateHaplotypes (averageHaplotypeF 1)
      (.mk ["C1"] (some 2) [⟨some 0⟩, ⟨some 1⟩] [])
      [⟨"", "", "", [0]⟩, ⟨"", "", "", [0]⟩, ⟨"", "", "", [Uncertain]⟩]).2 2).markers
      = [0] ∧ (0 : ℚ) ≠ Uncertain := by
  constructor
  · norm_num [calculateHaplotypes, calculateHaplotypesList, averageHaplotypeF,
      modalMarkers, slotValues, avgMarker, hget, hset, halloc, replaceUncertains,
      mergeUncertain, Uncertain, List.filterMap, List.range_succ, List.getD]
  · norm_num [Uncertain]

/-- The person-install step of the averaging pass on a clade with an existing
person `t`: with other than exactly one contributing person and no positive
contribution at slot `j`, an `Uncertain` slot `j` of `t` is overwritten with
`0`. -/
theorem avg_install_zero (n : ℕ) (lbl : String) (P : List ℕ) (t j : ℕ)
    (g : Heap) (hlen : t < g.length) (hone : P.length ≠ 1)
    (hslot : (hget g t).markers[j]? = some Uncertain)
    (hcontrib : ∀ r ∈ P, (hget g r).markers.getD j 0 ≤ 0) :
    (hget (replaceUncertains t (averageHaplotypeF n P g).2
      (hset (averageHaplotypeF n P g).1 (averageHaplotypeF n P g).2
        { hget (averageHaplotypeF n P g).1 (averageHaplotypeF n P g).2 with
          id := lbl, name := lbl, label := lbl })) t).markers[j]? = some 0 := by
  obtain ⟨hA2, hAlen, hApres⟩ := avgF_shape_of_ne_one n P g hone
  set A := averageHaplotypeF n P g with hAdef
  set P' : PersonR := { hget A.1 A.2 with
    id := lbl, name := lbl, label := lbl } with hPmdef
  set h' := hset A.1 A.2 P' with hhmdef
  have htne : t ≠ A.2 := by rw [hA2]; omega
  have h't : hget h' t = hget g t := by
    rw [hhmdef, hget_hset_other _ htne, hApres t hlen]
  have h'A2 : (hget h' A.2).markers = (hget A.1 A.2).markers := by
    rw [hhmdef, hget_hset_self _ (by omega)]
  have h'len : h'.length = g.length + 1 := by
    rw [hhmdef, hset_length, hAlen]
  rw [replaceUncertains, hget_hset_self _ (by omega)]
  rw [h't, h'A2]
  rw [mergeUncertain_at_uncertain hslot]
  rw [hAdef] at *
  rw [avgF_slot_of_nonpos n _ g j hone hcontrib]

/-- **C5 (amended)**: in the stage-2 averaging pass, for any clade (with
samples and subclades) whose person slot `j` is still `Uncertain` when the
clade's own averaging step runs — the heap at that moment is the one the
bottom-up recursion into the subclades returns — if none of the direct
children (sample persons or just-recursed subclade persons) contributes a
positive value at that slot, and the clade has other than exactly one child
person, the slot is overwritten with `0` (absent) — it does not stay
`Uncertain`. -/
theorem claim5_amended (n : ℕ) (snps : List String) (samples : List SampleT)
    (subclades : List CladeT) (t j : ℕ) (h : Heap)
    (hlen : t < (calculateHaplotypesList (averageHaplotypeF n) subclades h).2.1.length)
    (hone : (samples.filterMap SampleT.person
      ++ (calculateHaplotypesList (averageHaplotypeF n) subclades h).2.2).length ≠ 1)
    (hslot : (hget (calculateHaplotypesList (averageHaplotypeF n) subclades h).2.1
      t).markers[j]? = some Uncertain)
    (hcontrib : ∀ r ∈ samples.filterMap SampleT.person
        ++ (calculateHaplotypesList (averageHaplotypeF n) subclades h).2.2,
      (hget (calculateHaplotypesList (averageHaplotypeF n) subclades h).2.1
        r).markers.getD j 0 ≤ 0) :
    (hget (calculateHaplotypes (averageHaplotypeF n)
      (.mk snps (some t) samples subclades) h).2 t).markers[j]? = some 0 := by
  set R := calculateHaplotypesList (averageHaplotypeF n) subclades h with hRdef
  set P := samples.filterMap SampleT.person ++ R.2.2 with hPdef
  have hres : (calculateHaplotypes (averageHaplotypeF n)
      (.mk snps (some t) samples subclades) h).2
      = replaceUncertains t (averageHaplotypeF n P R.2.1).2
          (hset (averageHaplotypeF n P R.2.1).1 (averageHaplotypeF n P R.2.1).2
            { hget (averageHaplotypeF n P R.2.1).1
                (averageHaplotypeF n P R.2.1).2 with
              id := snps.headD "", name := snps.headD "",
              label := snps.headD "" }) := by
    rw [calculateHaplotypes]
  rw [hres]
  exact avg_install_zero n (snps.headD "") P t j R.2.1 hlen hone hslot hcontrib

/-- Witness for the amended C5 at a concrete clade with one sample (value
absent) and one subclade whose person also has the value absent: the root
person's `Uncertain` slot is overwritten with `0`. -/
theorem claim5_amended_witness :
    (hget (calculateHaplotypes (averageHaplotypeF 1)
      (.mk ["C1"] (some 2) [⟨some 0⟩] [.mk ["S"] (some 1) [] []])
      [⟨"", "", "", [0]⟩, ⟨"", "", "", [0]⟩, ⟨"", "", "", [Uncertain]⟩]).2 2).markers[0]?
      = some 0 :=
  claim5_amended 1 ["C1"] [⟨some 0⟩] [.mk ["S"] (some 1) [] []] 2 0
    [⟨"", "", "", [0]⟩, ⟨"", "", "", [0]⟩, ⟨"", "", "", [Uncertain]⟩]
    (by norm_num [calculateHaplotypesList, calculateHaplotypes, averageHaplotypeF,
      halloc, hset, hget, replaceUncertains, mergeUncertain, List.filterMap,
      CladeT.person, CladeT.snps, CladeT.samples, CladeT.subclades,
      Option.toList])
    (by norm_num [calculateHaplotypesList, calculateHaplotypes, averageHaplotypeF,
      halloc, hset, hget, replaceUncertains, mergeUncertain, List.filterMap,
      CladeT.person, CladeT.snps, CladeT.samples, CladeT.subclades,
      Option.toList])
    (by norm_num [calculateHaplotypesList, calculateHaplotypes, averageHaplotypeF,
      halloc, hset, hget, replaceUncertains, mergeUncertain, List.filterMap,
      CladeT.person, CladeT.snps, CladeT.samples, CladeT.subclades,
      Option.toList, List.getD, Uncertain])
    (by
      intro r hr
      norm_num [calculateHaplotypesList, calculateHaplotypes, averageHaplotypeF,
        halloc, hset, hget, replaceUncertains, mergeUncertain, List.filterMap,
        CladeT.person, CladeT.snps, CladeT.samples, CladeT.subclades,
        Option.toList] at hr
      rcases hr with h | h <;> subst h <;>
        norm_num [calculateHaplotypesList, calculateHaplotypes,
          averageHaplotypeF, halloc, hset, hget, replaceUncertains,
          mergeUncertain, List.filterMap, CladeT.person, CladeT.snps,
          CladeT.samples, CladeT.subclades, Option.toList, List.getD])

/-- Witness for the amended C6, exercising both cases: no positive value
(`[0, Uncertain]` yields 0) and at least one positive value (`[0, 13, 15]`
yields `Uncertain` or a positive member). -/
theorem claim6_candidate_restriction_witness :
    maxParsimony [0, Uncertain] = 0 ∧
    (maxParsimony [(0:ℚ), 13, 15] = Uncertain ∨
      (0 < maxParsimony [(0:ℚ), 13, 15] ∧
        maxParsimony [(0:ℚ), 13, 15] ∈ [(0:ℚ), 13, 15])) :=
  ⟨(claim6_candidate_restriction [0, Uncertain]).1 (by norm_num [Uncertain]),
   (claim6_candidate_restriction [0, 13, 15]).2
     (by intro hcon; norm_num at hcon; exact List.cons_ne_nil _ _ hcon)⟩

/-! ## Claim C9: single-value law -/

/-- **C9 (amended)**: when exactly one child contributes a positive value at
a marker slot, the averaging computation and the stepwise `maxParsimony`
both return that sole value; and when only one person is present, both
haplotype policies return that person itself. -/
theorem claim9_single_value_law :
    (∀ (values : List ℚ) (v : ℚ), values.filter (fun x => 0 < x) = [v] →
      avgMarker values = v ∧ maxParsimony values = v) ∧
    (∀ (n p : ℕ) (h : Heap),
      averageHaplotypeF n [p] h = (h, p) ∧
      maximumParsimonyHaplotypeF n [p] h = (h, p)) := by
  constructor
  · intro values v hfil
    constructor
    · unfold avgMarker
      rw [hfil]
      norm_num
    · unfold maxParsimony parsScan
      simp only [hfil]
      rw [List.foldl_cons, parsStep_of_lt (WithTop.coe_lt_top _), List.foldl_nil]
  · intro n p h
    exact ⟨rfl, rfl⟩

/-- Witness for C9: values `[0, 9]` have the single positive contributor 9,
which both per-marker computations return; and both policies return the
single person `0` of a one-element person list unchanged. -/
theorem claim9_single_value_law_witness :
    (avgMarker [0, 9] = 9 ∧ maxParsimony [0, 9] = 9) ∧
    (averageHaplotypeF 1 [0] [⟨"", "", "", [9]⟩] = ([⟨"", "", "", [9]⟩], 0) ∧
     maximumParsimonyHaplotypeF 1 [0] [⟨"", "", "", [9]⟩] = ([⟨"", "", "", [9]⟩], 0)) :=
  ⟨claim9_single_value_law.1 [0, 9] 9 (by norm_num),
   claim9_single_value_law.2 1 0 [⟨"", "", "", [9]⟩]⟩

/-- Counterexample for C9 as stated: two persons with values `5` (the sole
contributor) and `0` (absent) at the only marker; the pipeline's parsimony
policy `maximumParsimonyHaplotype` returns `Uncertain` at that slot, not the
sole contributed value 5. -/
theorem claim9_counterexample :
    (hget (maximumParsimonyHaplotypeF 1 [0, 1]
        [⟨"", "", "", [5]⟩, ⟨"", "", "", [0]⟩]).1
      (maximumParsimonyHaplotypeF 1 [0, 1]
        [⟨"", "", "", [5]⟩, ⟨"", "", "", [0]⟩]).2).markers = [Uncertain] ∧
    Uncertain ≠ (5 : ℚ) := by
  constructor
  · norm_num [maximumParsimonyHaplotypeF, modalMarkers, slotValues, hget, halloc,
      maximumParsimony, parsScan, parsStep, totalDist, singleDistInf, Uncertain,
      List.range_succ, List.getD]
  · norm_num [Uncertain]

/-! ## Claim C10: single-contributor aliasing -/

/-- **C10**: on a clade with nil person whose sole data contributor is a
single sample with person `r`, `calculateHaplotypes` (under either policy)
installs that sample's person object itself as the clade's person — the
clade and the sample now share cell `r` — after overwriting its ID, name and
label with the clade's first SNP name; the marker vector is untouched. -/
theorem claim10_single_contributor_aliasing (n : ℕ) (snps : List String)
    (samples : List SampleT) (r : ℕ) (h : Heap) (hr : r < h.length)
    (hsp : samples.filterMap SampleT.person = [r]) :
    (∃ s ∈ samples, s.person = some r) ∧
    (∀ pol, pol = averageHaplotypeF n ∨ pol = maximumParsimonyHaplotypeF n →
      (calculateHaplotypes pol (.mk snps none samples []) h).1.person = some r ∧
      (calculateHaplotypes pol (.mk snps none samples []) h).1.samples = samples ∧
      (hget (calculateHaplotypes pol (.mk snps none samples []) h).2 r).id
        = snps.headD "" ∧
      (hget (calculateHaplotypes pol (.mk snps none samples []) h).2 r).name
        = snps.headD "" ∧
      (hget (calculateHaplotypes pol (.mk snps none samples []) h).2 r).label
        = snps.headD "" ∧
      (hget (calculateHaplotypes pol (.mk snps none samples []) h).2 r).markers
        = (hget h r).markers) := by
  constructor
  · have : r ∈ samples.filterMap SampleT.person := by rw [hsp]; simp
    obtain ⟨s, hs, hsr⟩ := List.mem_filterMap.mp this
    exact ⟨s, hs, hsr⟩
  · intro pol hpol
    have hpol1 : pol (samples.filterMap SampleT.person) h = (h, r) := by
      rcases hpol with hp | hp <;> rw [hp, hsp] <;> rfl
    have hres : calculateHaplotypes pol (.mk snps none samples []) h
        = (.mk snps (some r) samples [],
           hset h r ⟨snps.headD "", snps.headD "", snps.headD "",
             (hget h r).markers⟩) := by
      rw [calculateHaplotypes, calculateHaplotypesList]
      simp [hpol1]
    rw [hres]
    refine ⟨rfl, rfl, ?_, ?_, ?_, ?_⟩ <;>
      rw [hget_hset_self _ hr]

/-- Witness for C10 at a one-sample clade: the clade's person becomes the
sample's own cell `0`, relabelled with the SNP name, markers untouched. -/
theorem claim10_single_contributor_aliasing_witness :
    ((calculateHaplotypes (maximumParsimonyHaplotypeF 1)
        (.mk ["M1"] none [⟨some 0⟩] []) [⟨"a", "b", "c", [7]⟩]).1.person
      = some 0) ∧
    ((hget (calculateHaplotypes (maximumParsimonyHaplotypeF 1)
        (.mk ["M1"] none [⟨some 0⟩] []) [⟨"a", "b", "c", [7]⟩]).2 0).id = "M1") ∧
    ((hget (calculateHaplotypes (maximumParsimonyHaplotypeF 1)
        (.mk ["M1"] none [⟨some 0⟩] []) [⟨"a", "b", "c", [7]⟩]).2 0).markers
      = [7]) := by
  have h := claim10_single_contributor_aliasing 1 ["M1"] [⟨some 0⟩] 0
    [⟨"a", "b", "c", [7]⟩] (by norm_num) (by simp [List.filterMap])
  have h3 := h.2 (maximumParsimonyHaplotypeF 1) (Or.inr rfl)
  refine ⟨h3.1, h3.2.2.1, ?_⟩
  rw [h3.2.2.2.2.2]
  norm_num [hget, List.getD]

/-! ## Cell-level lemmas for the pipeline proofs -/

theorem zero_ne_uncertain : (0 : ℚ) ≠ Uncertain := by norm_num [Uncertain]

theorem noU_iff_slots (l : List ℚ) :
    noU l ↔ ∀ j, l.getD j 0 ≠ Uncertain := by
  constructor
  · intro h j
    rw [List.getD_eq_getElem?_getD]
    cases hj : l[j]? with
    | none => simpa using zero_ne_uncertain
    | some v =>
      obtain ⟨hjl, rfl⟩ := List.getElem?_eq_some_iff.mp hj
      simpa using h _ (List.getElem_mem hjl)
  · intro h x hx
    obtain ⟨j, hj, rfl⟩ := List.mem_iff_getElem.mp hx
    have := h j
    rwa [List.getD_eq_getElem?_getD, List.getElem?_eq_getElem hj,
      Option.getD_some] at this

theorem ckFold_state_mem (t : ℚ) :
    ∀ (l : List ℚ) (st : CKState),
      ((l.foldl (ckStep t) st).smallestMutation = st.smallestMutation ∨
        (l.foldl (ckStep t) st).smallestMutation ∈ l) ∧
      ((l.foldl (ckStep t) st).greatestMutation = st.greatestMutation ∨
        (l.foldl (ckStep t) st).greatestMutation ∈ l) := by
  intro l
  induction l with
  | nil => intro st; simp
  | cons x xs ih =>
    intro st
    rw [List.foldl_cons]
    have hs : (ckStep t st x).smallestMutation = st.smallestMutation ∨
        (ckStep t st x).smallestMutation = x := by
      unfold ckStep
      simp only []
      split_ifs <;> simp
    have hg : (ckStep t st x).greatestMutation = st.greatestMutation ∨
        (ckStep t st x).greatestMutation = x := by
      unfold ckStep
      simp only []
      split_ifs <;> simp
    obtain ⟨ih1, ih2⟩ := ih (ckStep t st x)
    constructor
    · rcases ih1 with h | h
      · rcases hs with h' | h'
        · left; rw [h, h']
        · right; rw [h, h']; simp
      · right; simp [h]
    · rcases ih2 with h | h
      · rcases hg with h' | h'
        · left; rw [h, h']
        · right; rw [h, h']; simp
      · right; simp [h]

/-- If the target is not `Uncertain` and the key set holds no `Uncertain`
value, `closestKey` cannot return `Uncertain`. -/
theorem closestKey_fst_ne {t : ℚ} {keys : List ℚ} (htne : t ≠ Uncertain)
    (hk : (Uncertain : ℚ) ∉ keys) : (closestKey t keys).1 ≠ Uncertain := by
  unfold closestKey
  split_ifs with h0
  · exact htne
  obtain ⟨hsm, hgm⟩ := ckFold_state_mem t keys ⟨0, 0, ⊤, ⊤⟩
  have hs : (keys.foldl (ckStep t) ⟨0, 0, ⊤, ⊤⟩).smallestMutation ≠ Uncertain := by
    rcases hsm with h | h
    · rw [h]; exact zero_ne_uncertain
    · exact fun hc => hk (hc ▸ h)
  have hg : (keys.foldl (ckStep t) ⟨0, 0, ⊤, ⊤⟩).greatestMutation ≠ Uncertain := by
    rcases hgm with h | h
    · rw [h]; exact zero_ne_uncertain
    · exact fun hc => hk (hc ▸ h)
  simp only []
  split_ifs <;> first | exact hs | exact hg

theorem noU_mergeUncertain {target source : List ℚ} (hs : noU source) :
    noU (mergeUncertain target source) := by
  intro x hx
  rw [mergeUncertain] at hx
  obtain ⟨i, _, rfl⟩ := List.mem_map.mp hx
  simp only []
  split_ifs with hc
  · exact (noU_iff_slots source).mp hs i
  · exact hc

theorem noU_mergeUncertain_of_target {target source : List ℚ} (ht : noU target) :
    noU (mergeUncertain target source) := by
  intro x hx
  rw [mergeUncertain] at hx
  obtain ⟨i, _, rfl⟩ := List.mem_map.mp hx
  simp only []
  split_ifs with hc
  · exact absurd hc ((noU_iff_slots target).mp ht i)
  · exact hc

theorem noU_constrainMarkers {stats : Stats} {mapping : MappingOption}
    {markers : List ℚ} (hm : mapping ≠ MappingOption.markUncertain)
    (hstats : statsNoU stats) (hmk : noU markers) :
    noU (constrainMarkers stats mapping markers) := by
  intro x hx
  rw [constrainMarkers] at hx
  obtain ⟨i, _, rfl⟩ := List.mem_map.mp hx
  simp only []
  split_ifs with h1 h2
  · exact closestKey_fst_ne ((noU_iff_slots markers).mp hmk i) (hstats i)
  · exact absurd h2.2 hm
  · exact (noU_iff_slots markers).mp hmk i

theorem noU_replaceMarkersUncertainValues {stats : Stats}
    {target source : List ℚ} (hstats : statsNoU stats)
    (ht : noU target) (hs : noU source) :
    noU (replaceMarkersUncertainValues stats target source) := by
  intro x hx
  rw [replaceMarkersUncertainValues] at hx
  obtain ⟨i, _, rfl⟩ := List.mem_map.mp hx
  simp only []
  split_ifs with h1
  · exact closestKey_fst_ne ((noU_iff_slots source).mp hs i) (hstats i)
  · exact (noU_iff_slots target).mp ht i

theorem hset_oob {h : Heap} {r : ℕ} (p : PersonR) (hge : h.length ≤ r) :
    hset h r p = h := by
  rw [hset]
  exact List.set_eq_of_length_le hge

theorem cellOK_default : noU ((emptyPerson).markers) := by
  intro x hx
  simp [emptyPerson] at hx

theorem hget_oob {h : Heap} {r : ℕ} (hge : h.length ≤ r) :
    hget h r = emptyPerson := by
  rw [hget, List.getD_eq_getElem?_getD, List.getElem?_eq_none hge]
  rfl

theorem cellOK_hset_self {h : Heap} {r : ℕ} {p : PersonR} (hp : noU p.markers)
    (hOK : cellOK h r) : cellOK (hset h r p) r := by
  rcases Nat.lt_or_ge r h.length with hlt | hge
  · rw [cellOK, hget_hset_self _ hlt]; exact hp
  · rw [cellOK, hset_oob _ hge]; exact hOK

theorem cellOK_hset_of {h : Heap} {r : ℕ} {p : PersonR} (hp : noU p.markers) :
    ∀ r', cellOK h r' → cellOK (hset h r p) r' := by
  intro r' hr'
  rcases eq_or_ne r' r with rfl | hne
  · exact cellOK_hset_self hp hr'
  · rw [cellOK, hget_hset_other _ hne]; exact hr'

theorem heapGood_refl (h : Heap) : heapGood h h := fun _ hr => hr

theorem heapGood_trans {h1 h2 h3 : Heap} (a : heapGood h1 h2)
    (b : heapGood h2 h3) : heapGood h1 h3 := fun r hr => b r (a r hr)

theorem heapGood_append {h : Heap} {p : PersonR} (hp : noU p.markers) :
    heapGood h (h ++ [p]) := by
  intro r hr
  rcases Nat.lt_trichotomy r h.length with hlt | heq | hgt
  · rw [cellOK, hget_append_lt _ hlt]; exact hr
  · subst heq; rw [cellOK, hget_append_self]; exact hp
  · rw [cellOK, hget_oob (by simp; omega)]; exact cellOK_default

theorem slotKeep_refl (h : Heap) : slotKeep h h := fun _ _ _ hj => hj

theorem slotKeep_trans {h1 h2 h3 : Heap} (hlen : h1.length ≤ h2.length)
    (a : slotKeep h1 h2) (b : slotKeep h2 h3) : slotKeep h1 h3 :=
  fun r hr j hj => b r (lt_of_lt_of_le hr hlen) j (a r hr j hj)

/-- Heaps related by pointwise-unchanged markers keep slots. -/
theorem slotKeep_of_pres {h h' : Heap}
    (hpres : ∀ r, r < h.length → (hget h' r).markers = (hget h r).markers) :
    slotKeep h h' := by
  intro r hr j hj
  rw [hpres r hr]
  exact hj

theorem avgMarker_nonneg (values : List ℚ) : 0 ≤ avgMarker values := by
  unfold avgMarker
  simp only []
  split_ifs with h
  · apply div_nonneg
    · apply List.sum_nonneg
      intro x hx
      have := List.of_mem_filter hx
      have : 0 < x := by simpa using this
      linarith
    · positivity
  · exact le_refl 0

theorem avgMarker_ne_uncertain (values : List ℚ) :
    avgMarker values ≠ Uncertain := by
  have := avgMarker_nonneg values
  rw [Uncertain]
  intro hc
  rw [hc] at this
  norm_num at this

theorem noU_modalMarkers_avg (n len : ℕ) (f : ℕ → List ℚ) :
    noU (modalMarkers n len (fun m => avgMarker (f m))) := by
  intro x hx
  rw [modalMarkers] at hx
  obtain ⟨i, _, rfl⟩ := List.mem_map.mp hx
  split_ifs with h
  · exact avgMarker_ne_uncertain _
  · exact zero_ne_uncertain

theorem noU_replicate_zero (n : ℕ) : noU (List.replicate n (0:ℚ)) := by
  intro x hx
  rw [List.eq_of_mem_replicate hx]
  exact zero_ne_uncertain

theorem avgF_pres (n : ℕ) (persons : List ℕ) (h : Heap) :
    ∀ r, r < h.length → hget (averageHaplotypeF n persons h).1 r = hget h r := by
  rcases persons with _ | ⟨p, _ | ⟨q, rest⟩⟩ <;> intro r hr
  · exact hget_append_lt _ hr
  · rfl
  · exact hget_append_lt _ hr

theorem avgF_len (n : ℕ) (persons : List ℕ) (h : Heap) :
    h.length ≤ (averageHaplotypeF n persons h).1.length := by
  rcases persons with _ | ⟨p, _ | ⟨q, rest⟩⟩ <;> simp [averageHaplotypeF, halloc]

theorem avgF_heapGood (n : ℕ) (persons : List ℕ) (h : Heap) :
    heapGood h (averageHaplotypeF n persons h).1 := by
  rcases persons with _ | ⟨p, _ | ⟨q, rest⟩⟩
  · exact heapGood_append (by simpa using noU_replicate_zero n)
  · exact heapGood_refl h
  · exact heapGood_append (by simpa using noU_modalMarkers_avg n _ _)

theorem avgF_modal_ok (n : ℕ) (persons : List ℕ) (h : Heap)
    (hps : ∀ p ∈ persons, cellOK h p) :
    cellOK (averageHaplotypeF n persons h).1 (averageHaplotypeF n persons h).2 := by
  rcases persons with _ | ⟨p, _ | ⟨q, rest⟩⟩
  · show cellOK (h ++ [_]) h.length
    rw [cellOK, hget_append_self]
    simpa using noU_replicate_zero n
  · exact hps p (by simp)
  · show cellOK (h ++ [_]) h.length
    rw [cellOK, hget_append_self]
    simpa using noU_modalMarkers_avg n _ _

theorem mpF_pres (n : ℕ) (persons : List ℕ) (h : Heap) :
    ∀ r, r < h.length →
      hget (maximumParsimonyHaplotypeF n persons h).1 r = hget h r := by
  rcases persons with _ | ⟨p, _ | ⟨q, rest⟩⟩ <;> intro r hr
  · exact hget_append_lt _ hr
  · rfl
  · exact hget_append_lt _ hr

theorem mpF_len (n : ℕ) (persons : List ℕ) (h : Heap) :
    h.length ≤ (maximumParsimonyHaplotypeF n persons h).1.length := by
  rcases persons with _ | ⟨p, _ | ⟨q, rest⟩⟩ <;>
    simp [maximumParsimonyHaplotypeF, halloc]

theorem labelset_markers (h : Heap) (p : ℕ) (a b c' : String) :
    ∀ r, (hget (hset h p { hget h p with id := a, name := b, label := c' }) r).markers
      = (hget h r).markers := by
  intro r
  rcases eq_or_ne r p with rfl | hne
  · rcases Nat.lt_or_ge r h.length with hlt | hge
    · rw [hget_hset_self _ hlt]
    · rw [hset_oob _ hge]
  · rw [hget_hset_other _ hne]

theorem mergeUncertain_slot_keep {target source : List ℚ} {j : ℕ}
    (hj : target.getD j 0 ≠ Uncertain) :
    (mergeUncertain target source).getD j 0 ≠ Uncertain := by
  rw [mergeUncertain, rangeMap_getD]
  split_ifs with hlen
  · simp only []
    rw [if_neg hj]
    exact hj
  · exact zero_ne_uncertain

theorem constrainMarkers_slot_keep {stats : Stats} {mapping : MappingOption}
    {markers : List ℚ} {j : ℕ} (hm : mapping ≠ MappingOption.markUncertain)
    (hstats : statsNoU stats) (hj : markers.getD j 0 ≠ Uncertain) :
    (constrainMarkers stats mapping markers).getD j 0 ≠ Uncertain := by
  rw [constrainMarkers, rangeMap_getD]
  simp only []
  split_ifs with hlen h1 h2
  · exact closestKey_fst_ne hj (hstats j)
  · exact absurd h2.2 hm
  · exact hj
  · exact zero_ne_uncertain

theorem ruv_slot_keep {stats : Stats} {target source : List ℚ} {j : ℕ}
    (hstats : statsNoU stats) (hs : noU source)
    (hj : target.getD j 0 ≠ Uncertain) :
    (replaceMarkersUncertainValues stats target source).getD j 0 ≠ Uncertain := by
  rw [replaceMarkersUncertainValues, rangeMap_getD]
  simp only []
  split_ifs with hlen h1
  · exact closestKey_fst_ne ((noU_iff_slots source).mp hs j) (hstats j)
  · exact hj
  · exact zero_ne_uncertain

theorem ru_length (t s : ℕ) (h : Heap) :
    (replaceUncertains t s h).length = h.length := hset_length _ _ _

theorem ru_heapGood (t s : ℕ) (h : Heap) :
    heapGood h (replaceUncertains t s h) := by
  intro r hr
  rcases eq_or_ne r t with rfl | hne
  · exact cellOK_hset_self (noU_mergeUncertain_of_target hr) hr
  · rw [cellOK, replaceUncertains, hget_hset_other _ hne]
    exact hr

theorem ru_target_ok (t s : ℕ) (h : Heap) (hs : cellOK h s) :
    cellOK (replaceUncertains t s h) t := by
  rcases Nat.lt_or_ge t h.length with hlt | hge
  · rw [cellOK, replaceUncertains, hget_hset_self _ hlt]
    exact noU_mergeUncertain hs
  · rw [cellOK, replaceUncertains, hset_oob _ hge, hget_oob hge]
    exact cellOK_default

theorem ru_slotKeep (t s : ℕ) (h : Heap) :
    slotKeep h (replaceUncertains t s h) := by
  intro r hr j hj
  rcases eq_or_ne r t with rfl | hne
  · rw [replaceUncertains, hget_hset_self _ hr]
    exact mergeUncertain_slot_keep hj
  · rw [replaceUncertains, hget_hset_other _ hne]
    exact hj

theorem chr_length (p : ℕ) (stats : Stats) (mapping : MappingOption) (h : Heap) :
    (constrainHaplotypeRef p stats mapping h).length = h.length := hset_length _ _ _

theorem chr_heapGood (p : ℕ) (stats : Stats) (mapping : MappingOption) (h : Heap)
    (hm : mapping ≠ MappingOption.markUncertain) (hstats : statsNoU stats) :
    heapGood h (constrainHaplotypeRef p stats mapping h) := by
  intro r hr
  rcases eq_or_ne r p with rfl | hne
  · exact cellOK_hset_self (noU_constrainMarkers hm hstats hr) hr
  · rw [cellOK, constrainHaplotypeRef, hget_hset_other _ hne]
    exact hr

theorem chr_slotKeep (p : ℕ) (stats : Stats) (mapping : MappingOption) (h : Heap)
    (hm : mapping ≠ MappingOption.markUncertain) (hstats : statsNoU stats) :
    slotKeep h (constrainHaplotypeRef p stats mapping h) := by
  intro r hr j hj
  rcases eq_or_ne r p with rfl | hne
  · rw [constrainHaplotypeRef, hget_hset_self _ hr]
    exact constrainMarkers_slot_keep hm hstats hj
  · rw [constrainHaplotypeRef, hget_hset_other _ hne]
    exact hj

theorem ruv_length (t s : ℕ) (stats : Stats) (h : Heap) :
    (replaceUncertainValues t s stats h).length = h.length := hset_length _ _ _

theorem ruv_heapGood (t s : ℕ) (stats : Stats) (h : Heap)
    (hstats : statsNoU stats) (hs : cellOK h s) :
    heapGood h (replaceUncertainValues t s stats h) := by
  intro r hr
  rcases eq_or_ne r t with rfl | hne
  · exact cellOK_hset_self (noU_replaceMarkersUncertainValues hstats hr hs) hr
  · rw [cellOK, replaceUncertainValues, hget_hset_other _ hne]
    exact hr

theorem ruv_slotKeep (t s : ℕ) (stats : Stats) (h : Heap)
    (hstats : statsNoU stats) (hs : cellOK h s) :
    slotKeep h (replaceUncertainValues t s stats h) := by
  intro r hr j hj
  rcases eq_or_ne r t with rfl | hne
  · rw [replaceUncertainValues, hget_hset_self _ hr]
    exact ruv_slot_keep hstats hs hj
  · rw [replaceUncertainValues, hget_hset_other _ hne]
    exact hj

/-! ## Structural lemmas on the pipeline passes -/

theorem sizeOf_clade_pos (c : CladeT) : 1 ≤ sizeOf c := by
  cases c; simp_arith

theorem sizeOf_cladeList_pos (cs : List CladeT) : 1 ≤ sizeOf cs := by
  cases cs <;> simp_arith

theorem sizeOf_subclades_le {snps : List String} {p : Option ℕ}
    {sa : List SampleT} {subs : List CladeT} {k : ℕ}
    (hc : sizeOf (CladeT.mk snps p sa subs) ≤ k + 1) : sizeOf subs ≤ k := by
  simp only [CladeT.mk.sizeOf_spec] at hc
  have h1 : 1 ≤ sizeOf snps := by cases snps <;> simp_arith
  have h2 : 1 ≤ sizeOf p := by cases p <;> simp_arith
  have h3 : 1 ≤ sizeOf sa := by cases sa <;> simp_arith
  omega

theorem sizeOf_clade_zero_absurd {c : CladeT} (hc : sizeOf c ≤ 0) : False := by
  have := sizeOf_clade_pos c
  omega

theorem sizeOf_cons_le {c : CladeT} {cs : List CladeT} {k : ℕ}
    (hc : sizeOf (c :: cs) ≤ k + 1) : sizeOf c ≤ k ∧ sizeOf cs ≤ k := by
  simp only [List.cons.sizeOf_spec] at hc
  have hc1 := sizeOf_clade_pos c
  have hc2 := sizeOf_cladeList_pos cs
  omega

/-- Stage 1 (`calculateHaplotypes` with the parsimony policy) on a tree with
nil clade persons: it sets every clade person, keeps the sample pointers,
only grows the heap, and leaves the marker vector of every existing cell
untouched (it only allocates modal cells and stamps SNP labels). -/
theorem stage1_spec (n : ℕ) : ∀ k : ℕ,
    (∀ c : CladeT, sizeOf c ≤ k → ∀ h : Heap, allNoneB c = true →
      allSomeB (calculateHaplotypes (maximumParsimonyHaplotypeF n) c h).1 = true ∧
      sampleRefs (calculateHaplotypes (maximumParsimonyHaplotypeF n) c h).1
        = sampleRefs c ∧
      h.length ≤ (calculateHaplotypes (maximumParsimonyHaplotypeF n) c h).2.length ∧
      (∀ r, r < h.length →
        (hget (calculateHaplotypes (maximumParsimonyHaplotypeF n) c h).2 r).markers
          = (hget h r).markers)) ∧
    (∀ cs : List CladeT, sizeOf cs ≤ k → ∀ h : Heap, allNoneListB cs = true →
      allSomeListB (calculateHaplotypesList (maximumParsimonyHaplotypeF n) cs h).1
        = true ∧
      sampleRefsList (calculateHaplotypesList (maximumParsimonyHaplotypeF n) cs h).1
        = sampleRefsList cs ∧
      h.length ≤ (calculateHaplotypesList (maximumParsimonyHaplotypeF n) cs h).2.1.length ∧
      (∀ r, r < h.length →
        (hget (calculateHaplotypesList (maximumParsimonyHaplotypeF n) cs h).2.1 r).markers
          = (hget h r).markers)) := by
  intro k
  induction k with
  | zero =>
    constructor
    · intro c hc
      exact absurd hc (by intro hcon; exact sizeOf_clade_zero_absurd hcon)
    · intro cs hcs
      rcases cs with _ | ⟨c, cs'⟩
      · intro h _
        exact ⟨rfl, rfl, le_refl _, fun r _ => rfl⟩
      · exfalso
        have h1 := sizeOf_clade_pos c
        have h2 := sizeOf_cladeList_pos cs'
        simp only [List.cons.sizeOf_spec] at hcs
        omega
  | succ k ih =>
    constructor
    · intro c hc h hnone
      obtain ⟨snps, person, samples, subclades⟩ := c
      have hsz : sizeOf subclades ≤ k := sizeOf_subclades_le hc
      rw [allNoneB] at hnone
      simp only [Bool.and_eq_true] at hnone
      obtain ⟨hpn, hsubsnone⟩ := hnone
      have hperson : person = none := Option.isNone_iff_eq_none.mp hpn
      subst hperson
      obtain ⟨hLsome, hLrefs, hLlen, hLpres⟩ := ih.2 subclades hsz h hsubsnone
      rw [calculateHaplotypes]
      simp only []
      set Lres := calculateHaplotypesList (maximumParsimonyHaplotypeF n) subclades h
        with hLdef
      set persons := samples.filterMap SampleT.person ++ Lres.2.2 with hpdef
      set hm := maximumParsimonyHaplotypeF n persons Lres.2.1 with hmdef
      refine ⟨?_, ?_, ?_, ?_⟩
      · rw [allSomeB]
        simp [hLsome]
      · rw [sampleRefs, sampleRefs, hLrefs]
      · calc h.length ≤ Lres.2.1.length := hLlen
        _ ≤ hm.1.length := mpF_len n persons Lres.2.1
        _ = _ := (hset_length _ _ _).symm
      · intro r hr
        rw [labelset_markers]
        rw [mpF_pres n persons Lres.2.1 r (lt_of_lt_of_le hr hLlen)]
        exact hLpres r hr
    · intro cs hcs h hnone
      rcases cs with _ | ⟨c, cs'⟩
      · exact ⟨rfl, rfl, le_refl _, fun r _ => rfl⟩
      have hszc : sizeOf c ≤ k := (sizeOf_cons_le hcs).1
      have hszcs : sizeOf cs' ≤ k := (sizeOf_cons_le hcs).2
      rw [allNoneListB] at hnone
      simp only [Bool.and_eq_true] at hnone
      obtain ⟨hcn, hcsn⟩ := hnone
      obtain ⟨hPsome, hPrefs, hPlen, hPpres⟩ := ih.1 c hszc h hcn
      set res := calculateHaplotypes (maximumParsimonyHaplotypeF n) c h with hresdef
      obtain ⟨hQsome, hQrefs, hQlen, hQpres⟩ := ih.2 cs' hszcs res.2 hcsn
      rw [calculateHaplotypesList]
      simp only []
      refine ⟨?_, ?_, ?_, ?_⟩
      · rw [allSomeListB]
        simp [hPsome, hQsome]
      · rw [sampleRefsList, sampleRefsList, hPrefs, hQrefs]
      · exact le_trans hPlen hQlen
      · intro r hr
        rw [hQpres r (lt_of_lt_of_le hr hPlen), hPpres r hr]

theorem cellOK_of_markers_eq {h h' : Heap} {r : ℕ}
    (he : (hget h' r).markers = (hget h r).markers) :
    cellOK h r → cellOK h' r := by
  rw [cellOK, cellOK, he]
  exact id

theorem heapGood_of_pres {h h' : Heap}
    (hp : ∀ r, (hget h' r).markers = (hget h r).markers) : heapGood h h' :=
  fun r => cellOK_of_markers_eq (hp r)

/-- Stage 2 (`calculateHaplotypes` with the averaging policy) on a tree whose
clade persons are all set and whose sample cells are `Uncertain`-free: the
tree is unchanged, the heap evolves monotonically (cells stay
`Uncertain`-free, slots stay resolved), and afterwards every clade person
cell is `Uncertain`-free. -/
theorem stage2_spec (n : ℕ) : ∀ k : ℕ,
    (∀ c : CladeT, sizeOf c ≤ k → ∀ h : Heap, allSomeB c = true →
      (∀ r ∈ sampleRefs c, cellOK h r) →
      (calculateHaplotypes (averageHaplotypeF n) c h).1 = c ∧
      heapGood h (calculateHaplotypes (averageHaplotypeF n) c h).2 ∧
      slotKeep h (calculateHaplotypes (averageHaplotypeF n) c h).2 ∧
      h.length ≤ (calculateHaplotypes (averageHaplotypeF n) c h).2.length ∧
      (∀ r ∈ cladeRefs c,
        cellOK (calculateHaplotypes (averageHaplotypeF n) c h).2 r)) ∧
    (∀ cs : List CladeT, sizeOf cs ≤ k → ∀ h : Heap, allSomeListB cs = true →
      (∀ r ∈ sampleRefsList cs, cellOK h r) →
      (calculateHaplotypesList (averageHaplotypeF n) cs h).1 = cs ∧
      heapGood h (calculateHaplotypesList (averageHaplotypeF n) cs h).2.1 ∧
      slotKeep h (calculateHaplotypesList (averageHaplotypeF n) cs h).2.1 ∧
      h.length ≤ (calculateHaplotypesList (averageHaplotypeF n) cs h).2.1.length ∧
      (∀ r ∈ cladeRefsList cs,
        cellOK (calculateHaplotypesList (averageHaplotypeF n) cs h).2.1 r) ∧
      (∀ r ∈ (calculateHaplotypesList (averageHaplotypeF n) cs h).2.2,
        cellOK (calculateHaplotypesList (averageHaplotypeF n) cs h).2.1 r)) := by
  intro k
  induction k with
  | zero =>
    constructor
    · intro c hc
      exact absurd hc (by intro hcon; exact sizeOf_clade_zero_absurd hcon)
    · intro cs hcs
      rcases cs with _ | ⟨c, cs'⟩
      · intro h _ _
        refine ⟨rfl, heapGood_refl h, slotKeep_refl h, le_refl _, ?_, ?_⟩ <;>
          intro r hr
        · simp [cladeRefsList] at hr
        · simp [calculateHaplotypesList] at hr
      · exfalso
        have h1 := sizeOf_clade_pos c
        have h2 := sizeOf_cladeList_pos cs'
        simp only [List.cons.sizeOf_spec] at hcs
        omega
  | succ k ih =>
    constructor
    · intro c hc h hsome hsOK
      obtain ⟨snps, person, samples, subclades⟩ := c
      have hsz : sizeOf subclades ≤ k := sizeOf_subclades_le hc
      rw [allSomeB] at hsome
      simp only [Bool.and_eq_true] at hsome
      obtain ⟨hps, hsubsome⟩ := hsome
      obtain ⟨t, hperson⟩ := Option.isSome_iff_exists.mp hps
      subst hperson
      have hsOKsubs : ∀ r ∈ sampleRefsList subclades, cellOK h r := by
        intro r hr
        exact hsOK r (by rw [sampleRefs]; exact List.mem_append_right _ hr)
      have hsOKown : ∀ r ∈ samples.filterMap SampleT.person, cellOK h r := by
        intro r hr
        exact hsOK r (by rw [sampleRefs]; exact List.mem_append_left _ hr)
      obtain ⟨hLtree, hLgood, hLslot, hLlen, hLclade, hLpersons⟩ :=
        ih.2 subclades hsz h hsubsome hsOKsubs
      rw [calculateHaplotypes]
      try simp only []
      set Lres := calculateHaplotypesList (averageHaplotypeF n) subclades h
        with hLdef
      set persons := samples.filterMap SampleT.person ++ Lres.2.2 with hpdef
      have hpersOK : ∀ p ∈ persons, cellOK Lres.2.1 p := by
        intro p hp
        rcases List.mem_append.mp hp with hp | hp
        · exact hLgood p (hsOKown p hp)
        · exact hLpersons p hp
      set hm := averageHaplotypeF n persons Lres.2.1 with hmdef
      have hmodalOK : cellOK hm.1 hm.2 := avgF_modal_ok n persons Lres.2.1 hpersOK
      have hmgood : heapGood Lres.2.1 hm.1 := avgF_heapGood n persons Lres.2.1
      have hmlen : Lres.2.1.length ≤ hm.1.length := avgF_len n persons Lres.2.1
      have hmslot : slotKeep Lres.2.1 hm.1 :=
        slotKeep_of_pres (fun r hr => by rw [avgF_pres n persons Lres.2.1 r hr])
      have hlabelpres := labelset_markers hm.1 hm.2 (snps.headD "") (snps.headD "")
        (snps.headD "")
      set h' := hset hm.1 hm.2 ⟨snps.headD "", snps.headD "", snps.headD "",
        (hget hm.1 hm.2).markers⟩ with hhmdef
      have h'good : heapGood hm.1 h' := heapGood_of_pres hlabelpres
      have h'slot : slotKeep hm.1 h' := slotKeep_of_pres (fun r _ => hlabelpres r)
      have h'len : hm.1.length = h'.length := (hset_length _ _ _).symm
      have h'modalOK : cellOK h' hm.2 := cellOK_of_markers_eq (hlabelpres hm.2) hmodalOK
      refine ⟨?_, ?_, ?_, ?_, ?_⟩
      · rw [hLtree]
      · exact heapGood_trans hLgood (heapGood_trans hmgood
          (heapGood_trans h'good (ru_heapGood t hm.2 h')))
      · refine slotKeep_trans hLlen hLslot ?_
        refine slotKeep_trans hmlen hmslot ?_
        refine slotKeep_trans (le_of_eq h'len) h'slot (ru_slotKeep t hm.2 h')
      · rw [ru_length, ← h'len]
        omega
      · intro r hr
        rw [cladeRefs] at hr
        rcases List.mem_append.mp hr with hr | hr
        · simp only [Option.toList_some, List.mem_singleton] at hr
          subst hr
          exact ru_target_ok r hm.2 h' h'modalOK
        · have h1 : cellOK Lres.2.1 r := hLclade r hr
          exact ru_heapGood t hm.2 h' r (h'good r (hmgood r h1))
    · intro cs hcs h hsome hsOK
      rcases cs with _ | ⟨c, cs'⟩
      · refine ⟨rfl, heapGood_refl h, slotKeep_refl h, le_refl _, ?_, ?_⟩ <;>
          intro r hr
        · simp [cladeRefsList] at hr
        · simp [calculateHaplotypesList] at hr
      have hszc : sizeOf c ≤ k := (sizeOf_cons_le hcs).1
      have hszcs : sizeOf cs' ≤ k := (sizeOf_cons_le hcs).2
      rw [allSomeListB] at hsome
      simp only [Bool.and_eq_true] at hsome
      obtain ⟨hcsome, hcs'some⟩ := hsome
      have hsOKc : ∀ r ∈ sampleRefs c, cellOK h r := by
        intro r hr
        exact hsOK r (by rw [sampleRefsList]; exact List.mem_append_left _ hr)
      obtain ⟨hPtree, hPgood, hPslot, hPlen, hPclade⟩ := ih.1 c hszc h hcsome hsOKc
      set res := calculateHaplotypes (averageHaplotypeF n) c h with hresdef
      have hsOKcs' : ∀ r ∈ sampleRefsList cs', cellOK res.2 r := by
        intro r hr
        refine hPgood r (hsOK r ?_)
        rw [sampleRefsList]
        exact List.mem_append_right _ hr
      obtain ⟨hQtree, hQgood, hQslot, hQlen, hQclade, hQpersons⟩ :=
        ih.2 cs' hszcs res.2 hcs'some hsOKcs'
      rw [calculateHaplotypesList]
      try simp only []
      refine ⟨?_, ?_, ?_, ?_, ?_, ?_⟩
      · rw [hPtree, hQtree]
      · exact heapGood_trans hPgood hQgood
      · exact slotKeep_trans hPlen hPslot hQslot
      · exact le_trans hPlen hQlen
      · intro r hr
        rw [cladeRefsList] at hr
        rcases List.mem_append.mp hr with hr | hr
        · exact hQgood r (hPclade r hr)
        · exact hQclade r hr
      · intro r hr
        simp only [List.mem_append] at hr
        rcases hr with hr | hr
        · have : r ∈ cladeRefs c := by
            rw [hPtree] at hr
            obtain ⟨snps₁, person₁, samples₁, subclades₁⟩ := c
            rw [cladeRefs]
            refine List.mem_append_left _ ?_
            simpa using hr
          exact hQgood r (hPclade r this)
        · exact hQpersons r hr

theorem chr_fold (stats : Stats) (mapping : MappingOption)
    (hm : mapping ≠ MappingOption.markUncertain) (hstats : statsNoU stats) :
    ∀ (ps : List ℕ) (h : Heap),
      heapGood h (ps.foldl (fun hh p => constrainHaplotypeRef p stats mapping hh) h) ∧
      slotKeep h (ps.foldl (fun hh p => constrainHaplotypeRef p stats mapping hh) h) ∧
      (ps.foldl (fun hh p => constrainHaplotypeRef p stats mapping hh) h).length
        = h.length := by
  intro ps
  induction ps with
  | nil => intro h; exact ⟨heapGood_refl h, slotKeep_refl h, rfl⟩
  | cons p ps ih =>
    intro h
    rw [List.foldl_cons]
    obtain ⟨g, s, l⟩ := ih (constrainHaplotypeRef p stats mapping h)
    refine ⟨heapGood_trans (chr_heapGood p stats mapping h hm hstats) g, ?_, ?_⟩
    · exact slotKeep_trans (le_of_eq (chr_length p stats mapping h).symm)
        (chr_slotKeep p stats mapping h hm hstats) s
    · rw [l, chr_length]

/-- The `constrainHaplotypes` recursion (for the `mapCertain`/`mapAll`
mappings) keeps `Uncertain`-free cells `Uncertain`-free, keeps resolved
slots resolved, and does not change the heap size. -/
theorem constrainH_spec (stats : Stats) (mapping : MappingOption)
    (hm : mapping ≠ MappingOption.markUncertain) (hstats : statsNoU stats) :
    ∀ k : ℕ,
    (∀ c : CladeT, sizeOf c ≤ k → ∀ h : Heap,
      heapGood h (constrainHaplotypes stats mapping c h) ∧
      slotKeep h (constrainHaplotypes stats mapping c h) ∧
      (constrainHaplotypes stats mapping c h).length = h.length) ∧
    (∀ cs : List CladeT, sizeOf cs ≤ k → ∀ h : Heap,
      heapGood h (constrainHaplotypesList stats mapping cs h).1 ∧
      slotKeep h (constrainHaplotypesList stats mapping cs h).1 ∧
      (constrainHaplotypesList stats mapping cs h).1.length = h.length) := by
  intro k
  induction k with
  | zero =>
    constructor
    · intro c hc
      exact absurd hc (by intro hcon; exact sizeOf_clade_zero_absurd hcon)
    · intro cs hcs
      rcases cs with _ | ⟨c, cs'⟩
      · intro h
        exact ⟨heapGood_refl h, slotKeep_refl h, rfl⟩
      · exfalso
        have h1 := sizeOf_clade_pos c
        have h2 := sizeOf_cladeList_pos cs'
        simp only [List.cons.sizeOf_spec] at hcs
        omega
  | succ k ih =>
    constructor
    · intro c hc h
      obtain ⟨snps, person, samples, subclades⟩ := c
      have hsz : sizeOf subclades ≤ k := sizeOf_subclades_le hc
      obtain ⟨Lg, Ls, Ll⟩ := ih.2 subclades hsz h
      rw [constrainHaplotypes]
      try simp only []
      obtain ⟨Fg, Fs, Fl⟩ := chr_fold stats mapping hm hstats
        (person.toList ++ (constrainHaplotypesList stats mapping subclades h).2)
        (constrainHaplotypesList stats mapping subclades h).1
      refine ⟨heapGood_trans Lg Fg, ?_, ?_⟩
      · exact slotKeep_trans (le_of_eq Ll.symm) Ls Fs
      · rw [Fl, Ll]
    · intro cs hcs h
      rcases cs with _ | ⟨c, cs'⟩
      · exact ⟨heapGood_refl h, slotKeep_refl h, rfl⟩
      have hszc : sizeOf c ≤ k := (sizeOf_cons_le hcs).1
      have hszcs : sizeOf cs' ≤ k := (sizeOf_cons_le hcs).2
      obtain ⟨Pg, Ps, Pl⟩ := ih.1 c hszc h
      obtain ⟨Qg, Qs, Ql⟩ := ih.2 cs' hszcs (constrainHaplotypes stats mapping c h)
      rw [constrainHaplotypesList]
      try simp only []
      refine ⟨heapGood_trans Pg Qg, ?_, ?_⟩
      · exact slotKeep_trans (le_of_eq Pl.symm) Ps Qs
      · rw [Ql, Pl]

theorem cladeRefs_subset_list {a : CladeT} {subs : List CladeT} (ha : a ∈ subs) :
    ∀ x ∈ cladeRefs a, x ∈ cladeRefsList subs := by
  induction subs with
  | nil => exact absurd ha (List.not_mem_nil a)
  | cons c cs ih =>
    intro x hx
    rw [cladeRefsList]
    rcases List.mem_cons.mp ha with rfl | ha'
    · exact List.mem_append_left _ hx
    · exact List.mem_append_right _ (ih ha' x hx)

theorem mem_cladeRefsList_of_person {subs : List CladeT} {r : ℕ}
    (hr : r ∈ subs.filterMap CladeT.person) : r ∈ cladeRefsList subs := by
  obtain ⟨a, ha, hpa⟩ := List.mem_filterMap.mp hr
  refine cladeRefs_subset_list ha r ?_
  obtain ⟨snps, person, samples, subclades⟩ := a
  rw [CladeT.person] at hpa
  subst hpa
  rw [cladeRefs]
  simp

theorem sampleRefs_subset_list {a : CladeT} {subs : List CladeT} (ha : a ∈ subs) :
    ∀ x ∈ sampleRefs a, x ∈ sampleRefsList subs := by
  induction subs with
  | nil => exact absurd ha (List.not_mem_nil a)
  | cons c cs ih =>
    intro x hx
    rw [sampleRefsList]
    rcases List.mem_cons.mp ha with rfl | ha'
    · exact List.mem_append_left _ hx
    · exact List.mem_append_right _ (ih ha' x hx)

/-- The stage-4 top-down recalculation keeps `Uncertain`-free cells
`Uncertain`-free and resolved slots resolved, provided the parent person and
all tree cells it reads are `Uncertain`-free and the statistics are. -/
theorem recalc_spec (n : ℕ) (stats : Stats) (hstats : statsNoU stats) :
    ∀ k : ℕ,
    (∀ c : CladeT, sizeOf c ≤ k → ∀ (pp : Option ℕ) (h : Heap),
      (∀ r ∈ pp.toList, cellOK h r) →
      (∀ r ∈ sampleRefs c, cellOK h r) →
      (∀ r ∈ cladeRefs c, cellOK h r) →
      heapGood h (recalculateModalHaplotypes n stats c pp h) ∧
      slotKeep h (recalculateModalHaplotypes n stats c pp h) ∧
      h.length ≤ (recalculateModalHaplotypes n stats c pp h).length) ∧
    (∀ cs : List CladeT, sizeOf cs ≤ k → ∀ (pp : Option ℕ) (h : Heap),
      (∀ r ∈ pp.toList, cellOK h r) →
      (∀ r ∈ sampleRefsList cs, cellOK h r) →
      (∀ r ∈ cladeRefsList cs, cellOK h r) →
      heapGood h (recalculateModalHaplotypesList n stats cs pp h) ∧
      slotKeep h (recalculateModalHaplotypesList n stats cs pp h) ∧
      h.length ≤ (recalculateModalHaplotypesList n stats cs pp h).length) := by
  intro k
  induction k with
  | zero =>
    constructor
    · intro c hc
      exact absurd hc (by intro hcon; exact sizeOf_clade_zero_absurd hcon)
    · intro cs hcs
      rcases cs with _ | ⟨c, cs'⟩
      · intro pp h _ _ _
        exact ⟨heapGood_refl h, slotKeep_refl h, le_refl _⟩
      · exfalso
        have h1 := sizeOf_clade_pos c
        have h2 := sizeOf_cladeList_pos cs'
        simp only [List.cons.sizeOf_spec] at hcs
        omega
  | succ k ih =>
    constructor
    · intro c hc pp h hpp hsamp hclade
      obtain ⟨snps, person, samples, subclades⟩ := c
      have hsz : sizeOf subclades ≤ k := sizeOf_subclades_le hc
      have hpersOK : ∀ p ∈ pp.toList ++ subclades.filterMap CladeT.person
          ++ samples.filterMap SampleT.person, cellOK h p := by
        intro p hp
        rcases List.mem_append.mp hp with hp | hp
        · rcases List.mem_append.mp hp with hp | hp
          · exact hpp p hp
          · refine hclade p ?_
            rw [cladeRefs]
            exact List.mem_append_right _ (mem_cladeRefsList_of_person hp)
        · refine hsamp p ?_
          rw [sampleRefs]
          exact List.mem_append_left _ hp
      set persons := pp.toList ++ subclades.filterMap CladeT.person
        ++ samples.filterMap SampleT.person with hpdef
      set hr := averageHaplotypeF n persons h with hrdef
      have hrmodal : cellOK hr.1 hr.2 := avgF_modal_ok n persons h hpersOK
      have hrgood : heapGood h hr.1 := avgF_heapGood n persons h
      have hrslot : slotKeep h hr.1 :=
        slotKeep_of_pres (fun r hrr => by rw [hrdef, avgF_pres n persons h r hrr])
      have hrlen : h.length ≤ hr.1.length := avgF_len n persons h
      have hrecsub : ∀ (pq : Option ℕ) (h1 : Heap),
          (∀ r ∈ pq.toList, cellOK h1 r) →
          (∀ r ∈ sampleRefsList subclades, cellOK h1 r) →
          (∀ r ∈ cladeRefsList subclades, cellOK h1 r) →
          heapGood h1 (recalculateModalHaplotypesList n stats subclades pq h1) ∧
          slotKeep h1 (recalculateModalHaplotypesList n stats subclades pq h1) ∧
          h1.length ≤ (recalculateModalHaplotypesList n stats subclades pq h1).length :=
        fun pq h1 => ih.2 subclades hsz pq h1
      rcases person with _ | t
      · rw [recalculateModalHaplotypes.eq_def]
        try simp only []
        rw [← hpdef, ← hrdef]
        obtain ⟨g2, s2, l2⟩ := hrecsub none hr.1
          (by intro r hrr; simp at hrr)
          (by
            intro r hrr
            refine hrgood r (hsamp r ?_)
            rw [sampleRefs]
            exact List.mem_append_right _ hrr)
          (by
            intro r hrr
            refine hrgood r (hclade r ?_)
            rw [cladeRefs]
            exact List.mem_append_right _ hrr)
        refine ⟨heapGood_trans hrgood g2, slotKeep_trans hrlen hrslot s2, ?_⟩
        omega
      · rw [recalculateModalHaplotypes.eq_def]
        try simp only []
        rw [← hpdef, ← hrdef]
        have g1 : heapGood hr.1 (replaceUncertainValues t hr.2 stats hr.1) :=
          ruv_heapGood t hr.2 stats hr.1 hstats hrmodal
        have s1 : slotKeep hr.1 (replaceUncertainValues t hr.2 stats hr.1) :=
          ruv_slotKeep t hr.2 stats hr.1 hstats hrmodal
        have l1 : (replaceUncertainValues t hr.2 stats hr.1).length = hr.1.length :=
          ruv_length t hr.2 stats hr.1
        obtain ⟨g2, s2, l2⟩ := hrecsub (some t)
          (replaceUncertainValues t hr.2 stats hr.1)
          (by
            intro r hrr
            simp only [Option.toList_some, List.mem_singleton] at hrr
            subst hrr
            refine g1 r (hrgood r (hclade r ?_))
            rw [cladeRefs]
            simp)
          (by
            intro r hrr
            refine g1 r (hrgood r (hsamp r ?_))
            rw [sampleRefs]
            exact List.mem_append_right _ hrr)
          (by
            intro r hrr
            refine g1 r (hrgood r (hclade r ?_))
            rw [cladeRefs]
            exact List.mem_append_right _ hrr)
        refine ⟨heapGood_trans hrgood (heapGood_trans g1 g2), ?_, ?_⟩
        · exact slotKeep_trans hrlen hrslot
            (slotKeep_trans (le_of_eq l1.symm) s1 s2)
        · omega
    · intro cs hcs pp h hpp hsamp hclade
      rcases cs with _ | ⟨c, cs'⟩
      · exact ⟨heapGood_refl h, slotKeep_refl h, le_refl _⟩
      have hszc : sizeOf c ≤ k := (sizeOf_cons_le hcs).1
      have hszcs : sizeOf cs' ≤ k := (sizeOf_cons_le hcs).2
      have hsampc : ∀ r ∈ sampleRefs c, cellOK h r := by
        intro r hrr
        refine hsamp r ?_
        rw [sampleRefsList]
        exact List.mem_append_left _ hrr
      have hcladec : ∀ r ∈ cladeRefs c, cellOK h r := by
        intro r hrr
        refine hclade r ?_
        rw [cladeRefsList]
        exact List.mem_append_left _ hrr
      obtain ⟨Pg, Ps, Pl⟩ := ih.1 c hszc pp h hpp hsampc hcladec
      set h1 := recalculateModalHaplotypes n stats c pp h with h1def
      obtain ⟨Qg, Qs, Ql⟩ := ih.2 cs' hszcs pp h1
        (fun r hrr => Pg r (hpp r hrr))
        (by
          intro r hrr
          refine Pg r (hsamp r ?_)
          rw [sampleRefsList]
          exact List.mem_append_right _ hrr)
        (by
          intro r hrr
          refine Pg r (hclade r ?_)
          rw [cladeRefsList]
          exact List.mem_append_right _ hrr)
      rw [recalculateModalHaplotypesList.eq_def]
      try simp only []
      refine ⟨heapGood_trans Pg Qg, slotKeep_trans Pl Ps Qs, le_trans Pl Ql⟩

theorem mapCertain_ne_markUncertain :
    MappingOption.mapCertain ≠ MappingOption.markUncertain := by
  intro hcon
  exact MappingOption.noConfusion hcon

theorem mapAll_ne_markUncertain :
    MappingOption.mapAll ≠ MappingOption.markUncertain := by
  intro hcon
  exact MappingOption.noConfusion hcon

theorem exists_person_of_allSomeB {c : CladeT} (hs : allSomeB c = true) :
    ∃ t, c.person = some t := by
  obtain ⟨snps, person, samples, subclades⟩ := c
  rw [allSomeB] at hs
  simp only [Bool.and_eq_true] at hs
  obtain ⟨t, ht⟩ := Option.isSome_iff_exists.mp hs.1
  exact ⟨t, by rw [CladeT.person, ht]⟩

theorem person_mem_cladeRefs {c : CladeT} {t : ℕ} (ht : c.person = some t) :
    t ∈ cladeRefs c := by
  obtain ⟨snps, person, samples, subclades⟩ := c
  rw [CladeT.person] at ht
  subst ht
  rw [cladeRefs]
  simp

theorem sampleRefsList_subclades_subset (c : CladeT) :
    ∀ r ∈ sampleRefsList c.subclades, r ∈ sampleRefs c := by
  obtain ⟨snps, person, samples, subclades⟩ := c
  intro r hr
  rw [CladeT.subclades] at hr
  rw [sampleRefs]
  exact List.mem_append_right _ hr

theorem cladeRefsList_subclades_subset (c : CladeT) :
    ∀ r ∈ cladeRefsList c.subclades, r ∈ cladeRefs c := by
  obtain ⟨snps, person, samples, subclades⟩ := c
  intro r hr
  rw [CladeT.subclades] at hr
  rw [cladeRefs]
  exact List.mem_append_right _ hr

/-- The stage-4 pipeline decomposes into the trace of its passes. -/
theorem cmhp4_eq (n : ℕ) (stats : Stats) (c : CladeT) (h : Heap) :
    CalculateModalHaplotypesParsimony n stats 4 c h
      = ((calculateHaplotypes (averageHaplotypeF n)
            (calculateHaplotypes (maximumParsimonyHaplotypeF n) c h).1
            (calculateHaplotypes (maximumParsimonyHaplotypeF n) c h).2).1,
         (cmhpTrace n stats c h).getD 5 []) := by
  rw [CalculateModalHaplotypesParsimony]
  rw [if_neg (by norm_num : ¬ (4:ℤ) < 1)]
  try simp only []
  rw [if_pos (by norm_num : (2:ℤ) ≤ 4)]
  rw [if_neg (by norm_num : ¬ (4:ℤ) = 3)]
  rw [if_pos (by norm_num : (4:ℤ) ≤ 4)]
  rfl

/-- Chain consecutive slot-keeping steps along a trace. -/
theorem slotKeep_chain (f : ℕ → Heap)
    (steps : ∀ i, i < 5 → slotKeep (f i) (f (i+1)) ∧
      (f i).length ≤ (f (i+1)).length) :
    ∀ i j : ℕ, i ≤ j → j ≤ 5 → slotKeep (f i) (f j) := by
  have aux : ∀ d i : ℕ, i + d ≤ 5 → slotKeep (f i) (f (i + d)) ∧
      (f i).length ≤ (f (i + d)).length := by
    intro d
    induction d with
    | zero => intro i _; exact ⟨slotKeep_refl _, le_refl _⟩
    | succ d ihd =>
      intro i hle
      obtain ⟨s1, l1⟩ := ihd i (by omega)
      obtain ⟨s2, l2⟩ := steps (i + d) (by omega)
      have : i + (d + 1) = (i + d) + 1 := by omega
      rw [this]
      exact ⟨slotKeep_trans l1 s1 s2, le_trans l1 l2⟩
  intro i j hij hj5
  obtain ⟨d, rfl⟩ : ∃ d, j = i + d := ⟨j - i, by omega⟩
  exact (aux d i (by omega)).1

/-- Core facts about a stage-4 pipeline run on a freshly parsed tree (all
clade persons nil) with valid, `Uncertain`-free sample cells and a clean
statistics table: after the averaging pass every clade person is set; all
clade person cells are `Uncertain`-free in the final heap; and every pass of
the pipeline keeps resolved slots resolved. -/
theorem cmhp4_core (n : ℕ) (stats : Stats) (c : CladeT) (h : Heap)
    (hnone : allNoneB c = true)
    (hvalid : ∀ r ∈ sampleRefs c, r < h.length)
    (hsample : ∀ r ∈ sampleRefs c, cellOK h r)
    (hstats : statsNoU stats) :
    allSomeB (calculateHaplotypes (averageHaplotypeF n)
        (calculateHaplotypes (maximumParsimonyHaplotypeF n) c h).1
        (calculateHaplotypes (maximumParsimonyHaplotypeF n) c h).2).1 = true ∧
    (∀ r ∈ cladeRefs (calculateHaplotypes (averageHaplotypeF n)
        (calculateHaplotypes (maximumParsimonyHaplotypeF n) c h).1
        (calculateHaplotypes (maximumParsimonyHaplotypeF n) c h).2).1,
      cellOK ((cmhpTrace n stats c h).getD 5 []) r) ∧
    (∀ i, i < 5 →
      slotKeep ((cmhpTrace n stats c h).getD i [])
        ((cmhpTrace n stats c h).getD (i+1) []) ∧
      ((cmhpTrace n stats c h).getD i []).length
        ≤ ((cmhpTrace n stats c h).getD (i+1) []).length) := by
  obtain ⟨hS1some, hS1refs, hS1len, hS1pres⟩ :=
    (stage1_spec n (sizeOf c)).1 c (le_refl _) h hnone
  set r1 := calculateHaplotypes (maximumParsimonyHaplotypeF n) c h with hr1def
  have hsOK1 : ∀ r ∈ sampleRefs r1.1, cellOK r1.2 r := by
    intro r hr
    rw [hS1refs] at hr
    exact cellOK_of_markers_eq (hS1pres r (hvalid r hr)) (hsample r hr)
  obtain ⟨hS2tree, hS2good, hS2slot, hS2len, hS2clade⟩ :=
    (stage2_spec n (sizeOf r1.1)).1 r1.1 (le_refl _) r1.2 hS1some hsOK1
  set r2 := calculateHaplotypes (averageHaplotypeF n) r1.1 r1.2 with hr2def
  have hr2some : allSomeB r2.1 = true := by rw [hS2tree]; exact hS1some
  obtain ⟨t, ht⟩ := exists_person_of_allSomeB hr2some
  obtain ⟨Cg, Cs, Cl⟩ :=
    (constrainH_spec stats MappingOption.mapCertain mapCertain_ne_markUncertain
      hstats (sizeOf r2.1)).1 r2.1 (le_refl _) r2.2
  set ha := constrainHaplotypes stats MappingOption.mapCertain r2.1 r2.2 with hhadef
  have hT4eq : (match r2.1.person with
      | some r => constrainHaplotypeRef r stats MappingOption.mapAll ha
      | none => ha) = constrainHaplotypeRef t stats MappingOption.mapAll ha := by
    rw [ht]
  have g4 : heapGood ha (constrainHaplotypeRef t stats MappingOption.mapAll ha) :=
    chr_heapGood t stats MappingOption.mapAll ha mapAll_ne_markUncertain hstats
  have s4 : slotKeep ha (constrainHaplotypeRef t stats MappingOption.mapAll ha) :=
    chr_slotKeep t stats MappingOption.mapAll ha mapAll_ne_markUncertain hstats
  have l4 : (constrainHaplotypeRef t stats MappingOption.mapAll ha).length
      = ha.length := chr_length t stats MappingOption.mapAll ha
  set hb := constrainHaplotypeRef t stats MappingOption.mapAll ha with hhbdef
  -- cell facts at hb
  have hsOKhb : ∀ r ∈ sampleRefs r2.1, cellOK hb r := by
    intro r hr
    rw [hS2tree] at hr
    exact g4 r (Cg r (hS2good r (hsOK1 r hr)))
  have hcOKhb : ∀ r ∈ cladeRefs r2.1, cellOK hb r := by
    intro r hr
    rw [hS2tree] at hr
    exact g4 r (Cg r (hS2clade r hr))
  obtain ⟨Rg, Rs, Rl⟩ :=
    (recalc_spec n stats hstats (sizeOf r2.1.subclades)).2 r2.1.subclades
      (le_refl _) r2.1.person hb
      (by
        intro r hr
        rw [ht] at hr
        simp only [Option.toList_some, List.mem_singleton] at hr
        subst hr
        exact hcOKhb r (person_mem_cladeRefs ht))
      (by
        intro r hr
        exact hsOKhb r (sampleRefsList_subclades_subset r2.1 r hr))
      (by
        intro r hr
        exact hcOKhb r (cladeRefsList_subclades_subset r2.1 r hr))
  have hT5 : (cmhpTrace n stats c h).getD 5 []
      = recalculateModalHaplotypesList n stats r2.1.subclades r2.1.person hb := by
    show (cmhpTrace n stats c h).getD 5 []
      = recalculateModalHaplotypesList n stats r2.1.subclades r2.1.person hb
    rw [cmhpTrace]
    try simp only []
    rw [← hr1def, ← hr2def, ← hhadef, hT4eq]
    rfl
  refine ⟨hr2some, ?_, ?_⟩
  · intro r hr
    rw [hT5]
    exact Rg r (hcOKhb r hr)
  · intro i hi
    have hT0 : (cmhpTrace n stats c h).getD 0 [] = h := rfl
    have hT1 : (cmhpTrace n stats c h).getD 1 [] = r1.2 := rfl
    have hT2 : (cmhpTrace n stats c h).getD 2 [] = r2.2 := rfl
    have hT3 : (cmhpTrace n stats c h).getD 3 [] = ha := rfl
    have hT4 : (cmhpTrace n stats c h).getD 4 [] = hb := by
      show (cmhpTrace n stats c h).getD 4 [] = hb
      rw [cmhpTrace]
      try simp only []
      rw [← hr1def, ← hr2def, ← hhadef, hT4eq]
      rfl
    interval_cases i
    · rw [hT0, hT1]
      exact ⟨slotKeep_of_pres hS1pres, hS1len⟩
    · rw [hT1, hT2]
      exact ⟨hS2slot, hS2len⟩
    · rw [hT2, hT3]
      exact ⟨Cs, le_of_eq Cl.symm⟩
    · rw [hT3, hT4]
      exact ⟨s4, le_of_eq l4.symm⟩
    · rw [hT4, hT5]
      exact ⟨Rs, Rl⟩

/-- C2: Forced-resolution completeness.  On a freshly parsed tree (every
clade person nil) whose sample persons point into the heap and carry marker
vectors free of `Uncertain` entries, and with marker statistics listing real
marker values only, running `CalculateModalHaplotypesParsimony` at processing
stage 4 equips every clade of the subtree with a modal person whose marker
vector contains no `Uncertain` (-1) slot. -/
theorem claim2_forced_resolution (n : ℕ) (stats : Stats) (c : CladeT) (h : Heap)
    (hnone : allNoneB c = true)
    (hvalid : ∀ r ∈ sampleRefs c, r < h.length)
    (hsample : ∀ r ∈ sampleRefs c, cellOK h r)
    (hstats : statsNoU stats) :
    allSomeB (CalculateModalHaplotypesParsimony n stats 4 c h).1 = true ∧
    ∀ r ∈ cladeRefs (CalculateModalHaplotypesParsimony n stats 4 c h).1,
      cellOK (CalculateModalHaplotypesParsimony n stats 4 c h).2 r := by
  obtain ⟨hsome, hOK, _⟩ := cmhp4_core n stats c h hnone hvalid hsample hstats
  rw [cmhp4_eq]
  exact ⟨hsome, hOK⟩

/-- Witness for C2 at a concrete two-sample tree with sample values 3 and 4
and statistics `{3, 4}`. -/
theorem claim2_forced_resolution_witness :
    allSomeB (CalculateModalHaplotypesParsimony 1 [[3, 4]] 4
      (.mk ["R"] none [⟨some 0⟩, ⟨some 1⟩] [])
      [⟨"", "", "", [3]⟩, ⟨"", "", "", [4]⟩]).1 = true ∧
    ∀ r ∈ cladeRefs (CalculateModalHaplotypesParsimony 1 [[3, 4]] 4
      (.mk ["R"] none [⟨some 0⟩, ⟨some 1⟩] [])
      [⟨"", "", "", [3]⟩, ⟨"", "", "", [4]⟩]).1,
      cellOK (CalculateModalHaplotypesParsimony 1 [[3, 4]] 4
        (.mk ["R"] none [⟨some 0⟩, ⟨some 1⟩] [])
        [⟨"", "", "", [3]⟩, ⟨"", "", "", [4]⟩]).2 r :=
  claim2_forced_resolution 1 [[3, 4]] (.mk ["R"] none [⟨some 0⟩, ⟨some 1⟩] [])
    [⟨"", "", "", [3]⟩, ⟨"", "", "", [4]⟩]
    (by norm_num [allNoneB, allNoneListB])
    (by
      intro r hr
      norm_num [sampleRefs, sampleRefsList, List.filterMap] at hr
      rcases hr with h | h <;> subst h <;> norm_num)
    (by
      intro r hr
      norm_num [sampleRefs, sampleRefsList, List.filterMap] at hr
      rcases hr with h | h <;> subst h <;>
        norm_num [cellOK, noU, hget, List.getD, Uncertain])
    (by
      intro i
      match i with
      | 0 => norm_num [statKeys, Uncertain]
      | (k+1) => simp [statKeys])

/-- Counterexample to C7 as stated: on a two-sample tree with values 3 and 4
and statistics `{3, 4}`, the averaging pass of a stage-2 run resolves the
clade's single marker slot to `7/2`, but the stage-3 run — identical up to
and including that averaging pass — then applies `markUncertain` and sets
the already resolved slot back to `Uncertain`, because `7/2` has no unique
nearest neighbor among `{3, 4}`. -/
theorem claim7_counterexample :
    (hget (CalculateModalHaplotypesParsimony 1 [[3, 4]] 2
      (.mk ["R"] none [⟨some 0⟩, ⟨some 1⟩] [])
      [⟨"", "", "", [3]⟩, ⟨"", "", "", [4]⟩]).2 2).markers = [7/2] ∧
    (CalculateModalHaplotypesParsimony 1 [[3, 4]] 3
      (.mk ["R"] none [⟨some 0⟩, ⟨some 1⟩] [])
      [⟨"", "", "", [3]⟩, ⟨"", "", "", [4]⟩]).1.person = some 2 ∧
    (hget (CalculateModalHaplotypesParsimony 1 [[3, 4]] 3
      (.mk ["R"] none [⟨some 0⟩, ⟨some 1⟩] [])
      [⟨"", "", "", [3]⟩, ⟨"", "", "", [4]⟩]).2 2).markers = [Uncertain] := by
  norm_num [CalculateModalHaplotypesParsimony, calculateHaplotypes,
    calculateHaplotypesList, averageHaplotypeF, maximumParsimonyHaplotypeF,
    modalMarkers, slotValues, avgMarker, maximumParsimony, parsScan, parsStep,
    totalDist, singleDistInf, hget, hset, halloc, replaceUncertains,
    mergeUncertain, Uncertain, List.filterMap, List.range_succ, List.getD,
    constrainHaplotypes, constrainHaplotypesList, constrainHaplotypeRef,
    constrainMarkers, closestKey, ckStep, statKeys,
    CladeT.person, CladeT.snps, CladeT.samples, CladeT.subclades]
  decide

/-- C7 amended: within a stage-4 run of `CalculateModalHaplotypesParsimony`
(the `markUncertain` pass of stage 3 is excluded there), slot resolution is
monotone: across the five pipeline operations — strict parsimony, averaging,
`mapCertain`, the root's `mapAll`, and the top-down recalculation — an
allocated marker slot that is not `Uncertain` in an earlier heap of the
trace is not `Uncertain` in any later heap, and the final heap of the run is
the last heap of the trace. -/
theorem claim7_amended (n : ℕ) (stats : Stats) (c : CladeT) (h : Heap)
    (hnone : allNoneB c = true)
    (hvalid : ∀ r ∈ sampleRefs c, r < h.length)
    (hsample : ∀ r ∈ sampleRefs c, cellOK h r)
    (hstats : statsNoU stats) :
    (CalculateModalHaplotypesParsimony n stats 4 c h).2
      = (cmhpTrace n stats c h).getD 5 [] ∧
    ∀ i j : ℕ, i ≤ j → j ≤ 5 →
      slotKeep ((cmhpTrace n stats c h).getD i [])
        ((cmhpTrace n stats c h).getD j []) := by
  obtain ⟨-, -, hsteps⟩ := cmhp4_core n stats c h hnone hvalid hsample hstats
  refine ⟨?_, ?_⟩
  · rw [cmhp4_eq]
  · exact slotKeep_chain (fun i => (cmhpTrace n stats c h).getD i []) hsteps

/-- Witness for the amended C7 at a concrete one-sample tree with sample
value 3 and statistics `{3, 4}`. -/
theorem claim7_amended_witness :
    (CalculateModalHaplotypesParsimony 1 [[3, 4]] 4
      (.mk ["R"] none [⟨some 0⟩] []) [⟨"", "", "", [3]⟩]).2
      = (cmhpTrace 1 [[3, 4]] (.mk ["R"] none [⟨some 0⟩] [])
          [⟨"", "", "", [3]⟩]).getD 5 [] ∧
    ∀ i j : ℕ, i ≤ j → j ≤ 5 →
      slotKeep ((cmhpTrace 1 [[3, 4]] (.mk ["R"] none [⟨some 0⟩] [])
          [⟨"", "", "", [3]⟩]).getD i [])
        ((cmhpTrace 1 [[3, 4]] (.mk ["R"] none [⟨some 0⟩] [])
          [⟨"", "", "", [3]⟩]).getD j []) :=
  claim7_amended 1 [[3, 4]] (.mk ["R"] none [⟨some 0⟩] []) [⟨"", "", "", [3]⟩]
    (by norm_num [allNoneB, allNoneListB])
    (by
      intro r hr
      norm_num [sampleRefs, sampleRefsList, List.filterMap] at hr
      subst hr
      norm_num)
    (by
      intro r hr
      norm_num [sampleRefs, sampleRefsList, List.filterMap] at hr
      subst hr
      norm_num [cellOK, noU, hget, List.getD, Uncertain])
    (by
      intro i
      match i with
      | 0 => norm_num [statKeys, Uncertain]
      | (k+1) => simp [statKeys])
